import Mathlib

set_option maxRecDepth 8000

/- Shallow embedding of the tic-tac-toe Q-learning scripts (train.py, test.py,
   gui.py).  Python floats are modelled as exact rationals: every float the
   programs compute is a small decimal fraction, and all comparisons the
   programs perform are decided identically on the two representations.
   Python dicts are modelled as association lists with update-in-place /
   append-on-new-key semantics; `random.choice` is modelled as an oracle
   function applied to the exact candidate list the code builds.

   Rational arithmetic is expressed through `qadd`/`qsub`/`qmul` below, which
   are definitionally transparent (kernel-computable) versions of `+`, `-`,
   `*` on `ℚ`; the bridge lemmas `qadd_eq`, `qsub_eq`, `qmul_eq` identify them
   with the standard operations. -/

/-- Transparent addition on `ℚ` (same value as `+`, see `qadd_eq`). -/
def qadd (a b : ℚ) : ℚ := mkRat (a.num * b.den + b.num * a.den) (a.den * b.den)

/-- Transparent subtraction on `ℚ` (same value as `-`, see `qsub_eq`). -/
def qsub (a b : ℚ) : ℚ := mkRat (a.num * b.den - b.num * a.den) (a.den * b.den)

/-- Transparent multiplication on `ℚ` (same value as `*`, see `qmul_eq`). -/
def qmul (a b : ℚ) : ℚ := mkRat (a.num * b.num) (a.den * b.den)

theorem qadd_eq (a b : ℚ) : qadd a b = a + b := (Rat.add_def' a b).symm

theorem qsub_eq (a b : ℚ) : qsub a b = a - b := (Rat.sub_def' a b).symm

theorem qmul_eq (a b : ℚ) : qmul a b = a * b := by
  rw [qmul, Rat.mul_def, Rat.normalize_eq_mkRat]

/-- Association-list lookup, modelling Python `dict.get` and the `in` test. -/
def dlookup {κ α : Type} [DecidableEq κ] : List (κ × α) → κ → Option α
  | [], _ => none
  | (k, v) :: rest, k' => if k' = k then some v else dlookup rest k'

/-- Association-list insertion, modelling Python `d[k] = v`:
update in place when the key is present, append otherwise. -/
def dinsert {κ α : Type} [DecidableEq κ] : List (κ × α) → κ → α → List (κ × α)
  | [], k, v => [(k, v)]
  | (k0, v0) :: rest, k, v =>
      if k = k0 then (k0, v) :: rest else (k0, v0) :: dinsert rest k v

theorem dlookup_dinsert_self {κ α : Type} [DecidableEq κ]
    (d : List (κ × α)) (k : κ) (v : α) : dlookup (dinsert d k v) k = some v := by
  induction d with
  | nil => simp [dinsert, dlookup]
  | cons p rest ih =>
      obtain ⟨k0, v0⟩ := p
      by_cases h : k = k0
      · simp [dinsert, h, dlookup]
      · simp [dinsert, h, dlookup, ih]

theorem dlookup_dinsert_ne {κ α : Type} [DecidableEq κ]
    (d : List (κ × α)) (k k' : κ) (v : α) (h : k' ≠ k) :
    dlookup (dinsert d k v) k' = dlookup d k' := by
  induction d with
  | nil => simp [dinsert, dlookup, h]
  | cons p rest ih =>
      obtain ⟨k0, v0⟩ := p
      by_cases hk : k = k0
      · have h2 : k' ≠ k0 := hk ▸ h
        simp [dinsert, dlookup, hk, h2]
      · by_cases h2 : k' = k0 <;> simp [dinsert, dlookup, hk, h2, ih]

/- ===================== Board model (train.py / test.py) ===================== -/

/-- A board is the list of its 9 cell characters, cells being `' '`, `'X'`, `'O'`. -/
abbrev Board := List Char

/-- train.py `initialize_board`. -/
def init_board : Board := List.replicate 9 ' '

/-- train.py / test.py `available_moves`: the indices in 0..8 holding a space,
in ascending order. -/
def available_moves (b : Board) : List Nat :=
  (List.range 9).filter (fun i => b.getD i '#' == ' ')

/-- The 8 winning triples (3 rows, 3 columns, 2 diagonals), in source order. -/
def win_states : List (Nat × Nat × Nat) :=
  [(0,1,2), (3,4,5), (6,7,8), (0,3,6), (1,4,7), (2,5,8), (0,4,8), (2,4,6)]

/-- train.py / test.py `check_winner`: first monochrome non-blank triple wins. -/
def check_winner (b : Board) : Option Char :=
  match win_states.find? (fun t =>
      (b.getD t.1 '#' == b.getD t.2.1 '#') && (b.getD t.2.1 '#' == b.getD t.2.2 '#')
        && !(b.getD t.1 '#' == ' ')) with
  | some t => some (b.getD t.1 '#')
  | none => none

/-- train.py / test.py `is_full`. -/
def is_full (b : Board) : Bool := !(b.contains ' ')

/-- train.py `get_state`: the board serialized to its state key. -/
def get_state (b : Board) : String := String.mk b

/- ===================== Minimax (train.py / test.py) ===================== -/

/-- Fuel-indexed embedding of train.py / test.py `minimax`.  The board is
threaded through the computation to mirror the source's in-place
`board[move] = "O" … board[move] = " "` mutations: the second component is the
board state the call leaves behind.  The fuel-0 branch is unreachable whenever
the fuel exceeds the number of empty cells (at most 9). -/
def minimaxF : Nat → Board → Bool → Nat → ℚ × Board
  | 0, b, _, _ => (0, b)
  | f + 1, b, im, d =>
    if check_winner b = some 'O' then (qsub 1 (qmul (d : ℚ) (mkRat 1 100)), b)
    else if check_winner b = some 'X' then (qadd (-1) (qmul (d : ℚ) (mkRat 1 100)), b)
    else if is_full b then (0, b)
    else if im then
      (available_moves b).foldl (fun acc m =>
        let r := minimaxF f (acc.2.set m 'O') false (d + 1)
        (max acc.1 r.1, r.2.set m ' ')) (-999, b)
    else
      (available_moves b).foldl (fun acc m =>
        let r := minimaxF f (acc.2.set m 'X') true (d + 1)
        (min acc.1 r.1, r.2.set m ' ')) (999, b)

/-- train.py / test.py `minimax` as called (fuel 10 always suffices: a board
has at most 9 empty cells among indices 0..8). -/
def minimax (b : Board) (im : Bool) (d : Nat) : ℚ := (minimaxF 10 b im d).1

/-- train.py `optimal_move`, board-threaded like the source's in-place
mutation; the incumbent `(best_score, move)` starts at `(-999, None)` and is
replaced only on strict improvement. -/
def optimal_moveF (b : Board) : Option Nat × Board :=
  if available_moves b = [] then (none, b)
  else
    let r := (available_moves b).foldl (fun acc m =>
      let s := minimaxF 10 (acc.2.2.set m 'O') false 0
      let b' := s.2.set m ' '
      if s.1 > acc.1 then (s.1, some m, b') else (acc.1, acc.2.1, b'))
      ((-999 : ℚ), (none : Option Nat), b)
    (r.2.1, r.2.2)

/-- train.py / test.py `optimal_move` (the returned move). -/
def optimal_move (b : Board) : Option Nat := (optimal_moveF b).1

theorem eval_check_winner_empty : check_winner init_board = none := by decide

theorem eval_available_moves :
    available_moves [' ', 'X', 'O', ' ', 'X', 'O', ' ', ' ', ' '] = [0, 3, 6, 7, 8] := by
  decide

theorem eval_minimax_terminal :
    minimax ['O','O','O','X','X',' ','X',' ',' '] false 3 = qsub 1 (qmul 3 (mkRat 1 100)) := by
  decide

theorem eval_optimal_move_win_now :
    optimal_move ['X', 'X', ' ', 'O', 'O', ' ', 'X', 'O', 'X'] = some 5 := by decide

theorem eval_optimal_move_blocks :
    optimal_move ['X', 'X', ' ', ' ', 'O', ' ', ' ', 'O', 'X'] = some 2 := by decide

/- ===================== Q-learning agent (train.py) ===================== -/

/-- A Q-table: Python's dict from state key to dict from action to value. -/
abbrev QTable := List (String × List (Nat × ℚ))

/-- train.py `alpha = 0.1`. -/
def alpha : ℚ := mkRat 1 10

/-- train.py `gamma = 0.9`. -/
def gamma : ℚ := mkRat 9 10

/-- train.py initial `epsilon = 0.3`. -/
def epsilon0 : ℚ := mkRat 3 10

/-- train.py `epsilon_min = 0.01`. -/
def epsilon_min : ℚ := mkRat 1 100

/-- train.py `decay = 0.9995`. -/
def decay : ℚ := mkRat 1999 2000

/-- train.py `get_q_value`: `Q.get(state, {}).get(action, 0.0)`. -/
def get_q_value (Q : QTable) (state : String) (action : Nat) : ℚ :=
  (dlookup ((dlookup Q state).getD []) action).getD 0

/-- Python `max` on a list of rationals.  `max([])` raises in Python; the `[]`
case is never exercised where the list is the non-empty `next_moves` map, and
equals the `default=0.0` behaviour where gui.py uses it on `dict.values()`. -/
def listMax : List ℚ → ℚ
  | [] => 0
  | x :: xs => xs.foldl max x

/-- train.py `update_q_value`: lazily create `Q[state]`, read the current
value (default 0.0), bootstrap from the best next-state value over
`next_moves` (0.0 on a terminal transition), and write back
`current + alpha * (reward + gamma * next_max − current)`. -/
def update_q_value (Q : QTable) (state : String) (action : Nat) (reward : ℚ)
    (next_state : String) (next_moves : List Nat) : QTable :=
  let Q1 := match dlookup Q state with
    | some _ => Q
    | none => dinsert Q state []
  let current_q := (dlookup ((dlookup Q1 state).getD []) action).getD 0
  let next_max_q := match next_moves with
    | [] => 0
    | _ => listMax (next_moves.map (fun m => get_q_value Q1 next_state m))
  let new_q := qadd current_q (qmul alpha (qsub (qadd reward (qmul gamma next_max_q)) current_q))
  dinsert Q1 state (dinsert ((dlookup Q1 state).getD []) action new_q)

/-- Python `max(q_values, key=lambda x: x[1])` on a non-empty list: the first
pair with maximal second component (the `[]` case raises in Python and is
never exercised here). -/
def pyMaxBySnd : List (Nat × ℚ) → Nat × ℚ
  | [] => (0, 0)
  | p :: ps => ps.foldl (fun acc x => if x.2 > acc.2 then x else acc) p

/-- train.py `choose_action`.  `eps` and `Q` model the globals `epsilon` and
`Q` at call time, `u` models the `random.uniform(0, 1)` draw, and `pick`
models `random.choice` applied to the exact candidate list the code builds. -/
def choose_action (eps : ℚ) (Q : QTable) (pick : List Nat → Nat) (u : ℚ)
    (state : String) (moves : List Nat) : Nat :=
  if u < eps then pick moves
  else
    let q_values := moves.map (fun m => (m, get_q_value Q state m))
    let max_q := (pyMaxBySnd q_values).2
    let best_moves := (q_values.filter (fun p => decide (p.2 = max_q))).map (fun p => p.1)
    pick best_moves

/-- The exploration-rate sequence: train.py runs
`if epsilon > epsilon_min: epsilon *= decay` once per episode, from 0.3. -/
def epsSeq : Nat → ℚ
  | 0 => epsilon0
  | n + 1 => if epsSeq n > epsilon_min then qmul (epsSeq n) decay else epsSeq n

/-- train.py win branch (lines 169–177): history entry `(s, a)` at index `i`
gets reward `10 + (len(game_history) − i) * 0.1` and a terminal transition
(`next_state = ""`, no next moves). -/
def winBranchGo (n : Nat) : Nat → QTable → List (String × Nat) → QTable
  | _, Q, [] => Q
  | i, Q, (s, a) :: rest =>
      winBranchGo n (i + 1)
        (update_q_value Q s a (qadd 10 (qmul (qsub (n : ℚ) (i : ℚ)) (mkRat 1 10))) "" []) rest

/-- train.py win branch over the whole game history. -/
def winBranch (Q : QTable) (hist : List (String × Nat)) : QTable :=
  winBranchGo hist.length 0 Q hist

/-- train.py loss branch: every history entry updated with reward −10 and a
terminal transition. -/
def lossBranch (Q : QTable) (hist : List (String × Nat)) : QTable :=
  hist.foldl (fun acc p => update_q_value acc p.1 p.2 (-10) "" []) Q

/-- train.py draw branches: every history entry updated with reward 1 and a
terminal transition. -/
def drawBranch (Q : QTable) (hist : List (String × Nat)) : QTable :=
  hist.foldl (fun acc p => update_q_value acc p.1 p.2 1 "" []) Q

/- ===================== Persisted-table loading ===================== -/

/-- The state of the persisted `qtable.pkl` file at process start. -/
inductive FileState : Type
  | missing : FileState
  | corrupt : FileState
  | valid : QTable → FileState

/-- train.py lines 88–92.  The `with open("qtable.pkl","rb"):` statement binds
no name (there is no `as f`), so the following `pickle.load(f)` raises
`NameError` whenever the file opens; a missing file raises `FileNotFoundError`
at `open`.  Both exceptions land in the bare `except:`, which sets `Q = {}`.
Hence every file state yields the empty table. -/
def train_load_q : FileState → QTable
  | FileState.missing => []
  | FileState.corrupt => []
  | FileState.valid _ => []

/-- Outcome of the evaluation script's table load. -/
inductive LoadOutcome : Type
  | loaded : QTable → LoadOutcome
  | fatalExit : LoadOutcome
  | uncaught : LoadOutcome
  deriving DecidableEq

/-- test.py lines 61–67: a missing file prints a user-facing message and
raises `SystemExit` (fatal, evaluation never runs); a valid file is loaded;
a corrupt pickle raises an error the `except FileNotFoundError` clause does
not catch. -/
def test_load_q : FileState → LoadOutcome
  | FileState.missing => LoadOutcome.fatalExit
  | FileState.corrupt => LoadOutcome.uncaught
  | FileState.valid t => LoadOutcome.loaded t

/- ===================== Evaluation (test.py) ===================== -/

/-- Python `max(moves, key=f)` on a non-empty list: first element with maximal
key (the `[]` case raises in Python and is never exercised here). -/
def pyMaxByKey (f : Nat → ℚ) : List Nat → Nat
  | [] => 0
  | m :: ms => ms.foldl (fun acc x => if f x > f acc then x else acc) m

/-- test.py `get_state`: board serialization, suffixed with the mover's role
when the loaded table is role-aware. -/
def get_state_test (roleAware : Bool) (b : Board) (role : Char) : String :=
  if roleAware then String.mk (b ++ [role]) else String.mk b

/-- test.py `choose_action` (evaluation-only): uniformly random fallback when
the state was never visited, otherwise greedy
`max(moves, key=lambda a: Q[state].get(a, 0.0))`. -/
def choose_action_eval (Q : QTable) (pick : List Nat → Nat) (state : String)
    (moves : List Nat) : Nat :=
  match dlookup Q state with
  | none => pick moves
  | some inner => pyMaxByKey (fun a => (dlookup inner a).getD 0) moves

/-- Result of one evaluation game (`stalled` covers the source's bare `break`
paths that leave the tallies untouched, plus fuel exhaustion, which is
unreachable from a real board: each round places at least one stone). -/
inductive GameOutcome : Type
  | win | loss | draw | stalled

/-- One game of test.py `test_agent`, with the Q-table threaded explicitly
through every step (the source never assigns to `Q`; threading it makes the
read-only property expressible).  `pickA` models the random fallback inside
`choose_action`, `pickO` the opponent's `random.choice`; `smart` selects the
minimax opponent. -/
def test_game_loop : Nat → QTable → Bool → Bool → (List Nat → Nat) → (List Nat → Nat) →
    Board → GameOutcome × QTable
  | 0, Q, _, _, _, _, _ => (GameOutcome.stalled, Q)
  | fuel + 1, Q, roleAware, smart, pickA, pickO, board =>
    let moves := available_moves board
    if moves = [] then (GameOutcome.stalled, Q)
    else
      let action := choose_action_eval Q pickA (get_state_test roleAware board 'X') moves
      let board1 := board.set action 'X'
      if check_winner board1 = some 'X' then (GameOutcome.win, Q)
      else if is_full board1 then (GameOutcome.draw, Q)
      else
        let opp_moves := available_moves board1
        if opp_moves = [] then (GameOutcome.stalled, Q)
        else
          let opp_action :=
            if smart then
              match optimal_move board1 with
              | some m => m
              | none => pickO opp_moves
            else pickO opp_moves
          let board2 := board1.set opp_action 'O'
          if check_winner board2 = some 'O' then (GameOutcome.loss, Q)
          else if is_full board2 then (GameOutcome.draw, Q)
          else test_game_loop fuel Q roleAware smart pickA pickO board2

/- ===================== Interactive player (gui.py) ===================== -/

/-- gui.py `alpha = 0.5`. -/
def alpha_gui : ℚ := mkRat 1 2

/-- gui.py `gamma = 0.9`. -/
def gamma_gui : ℚ := mkRat 9 10

/-- A gui.py board: 9 cells with 0 = empty, 1 = AI (X), −1 = human (O). -/
abbrev GBoard := List Int

/-- gui.py `convert_to_training_format` (`{0: " ", 1: "X", -1: "O"}`; any
other cell value raises `KeyError` in Python and does not occur). -/
def convert_to_training_format (board : GBoard) : List Char :=
  board.map (fun cell => if cell = 0 then ' ' else if cell = 1 then 'X' else 'O')

/-- gui.py `get_state`. -/
def get_state_gui (board : GBoard) : String := String.mk (convert_to_training_format board)

/-- gui.py `check_winner`: like the training one on int cells, but returning
the draw marker `0` when the board is full with no winning triple. -/
def check_winner_gui (b : GBoard) : Option Int :=
  match win_states.find? (fun t =>
      (b.getD t.1 5 == b.getD t.2.1 5) && (b.getD t.2.1 5 == b.getD t.2.2 5)
        && !(b.getD t.1 5 == 0)) with
  | some t => some (b.getD t.1 5)
  | none => if !(b.contains 0) then some 0 else none

/-- gui.py `update_q`: creates `Q[prev_state]`, `Q[prev_state][action]` and
`Q[next_state]` when absent, then writes
`old + alpha * (reward + gamma * max(Q[next_state].values(), default=0.0) − old)`. -/
def update_q (Q : QTable) (prev_state : String) (action : Nat) (reward : ℚ)
    (next_state : String) : QTable :=
  let Q1 := match dlookup Q prev_state with
    | some _ => Q
    | none => dinsert Q prev_state []
  let Q2 := match dlookup ((dlookup Q1 prev_state).getD []) action with
    | some _ => Q1
    | none => dinsert Q1 prev_state (dinsert ((dlookup Q1 prev_state).getD []) action 0)
  let Q3 := match dlookup Q2 next_state with
    | some _ => Q2
    | none => dinsert Q2 next_state []
  let old_q := (dlookup ((dlookup Q3 prev_state).getD []) action).getD 0
  let future_q := listMax (((dlookup Q3 next_state).getD []).map (fun p => p.2))
  dinsert Q3 prev_state
    (dinsert ((dlookup Q3 prev_state).getD []) action
      (qadd old_q (qmul alpha_gui (qsub (qadd reward (qmul gamma_gui future_q)) old_q))))

/-- gui.py `end_game`'s learning sweep over the reversed memory: the latest
move gets the terminal reward, every earlier move reward 0, and `next_state`
chains backwards (`next_state = state` after each update). -/
def end_game_go : QTable → List (String × Nat) → ℚ → String → QTable
  | Q, [], _, _ => Q
  | Q, (s, a) :: rest, reward, next_state =>
      end_game_go (update_q Q s a reward next_state) rest 0 s

/-- gui.py `end_game` (its Q-table effect): reward +1 on AI (X) win, −1 on
human win, 0 on draw; sweep the move memory backwards from the final board. -/
def end_game (Q : QTable) (ai_memory : List (String × Nat)) (result : Int)
    (board : GBoard) : QTable :=
  end_game_go Q ai_memory.reverse
    (if result = 1 then 1 else if result = -1 then -1 else 0)
    (get_state_gui board)

theorem eval_update_q_value_fresh :
    get_q_value (update_q_value [] "   " 4 10 "" []) "   " 4 = 1 := by decide

theorem eval_update_q_gui_fresh :
    get_q_value (update_q [] "         " 0 1 "X        ") "         " 0 = mkRat 1 2 := by
  decide

theorem eval_epsSeq_two : epsSeq 2 = qmul (qmul epsilon0 decay) decay := by decide

theorem epsSeq_pos (n : Nat) : 0 < epsSeq n := by
  induction n with
  | zero =>
      show (0 : ℚ) < epsilon0
      decide
  | succ m ih =>
      rw [epsSeq]
      split_ifs with h
      · rw [qmul_eq]
        have hd : (0 : ℚ) < decay := by decide
        exact mul_pos ih hd
      · exact ih

theorem epsSeq_antitone (n : Nat) : epsSeq (n + 1) ≤ epsSeq n := by
  rw [epsSeq]
  split_ifs with h
  · rw [qmul_eq]
    have h1 : decay ≤ 1 := by decide
    nlinarith [epsSeq_pos n]
  · exact le_refl _

/- ===================== Numeric bridges ===================== -/

theorem mkRat_as_div (n : ℤ) (d : ℕ) : (mkRat n d : ℚ) = (n : ℚ) / (d : ℚ) := by
  rw [Rat.mkRat_eq_divInt, Rat.divInt_eq_div]
  norm_num

theorem alpha_val : alpha = 1 / 10 := by
  rw [alpha, mkRat_as_div] ; norm_num

theorem gamma_val : gamma = 9 / 10 := by
  rw [gamma, mkRat_as_div] ; norm_num

theorem epsilon0_val : epsilon0 = 3 / 10 := by
  rw [epsilon0, mkRat_as_div] ; norm_num

theorem epsilon_min_val : epsilon_min = 1 / 100 := by
  rw [epsilon_min, mkRat_as_div] ; norm_num

theorem decay_val : decay = 1999 / 2000 := by
  rw [decay, mkRat_as_div] ; norm_num

/- ===================== Exploration decay (train.py lines 231-233) ============ -/

theorem seven_pow_mod_eight (n : ℕ) : 7 ^ n % 8 = 1 ∨ 7 ^ n % 8 = 7 := by
  induction n with
  | zero => left ; rfl
  | succ m ih =>
      rcases ih with h | h
      · right
        rw [pow_succ, Nat.mul_mod, h]
      · left
        rw [pow_succ, Nat.mul_mod, h]

theorem closed_form_ne_floor (n : ℕ) : epsilon0 * decay ^ n ≠ epsilon_min := by
  intro h
  rw [epsilon0_val, decay_val, epsilon_min_val, div_pow] at h
  have h2 : (300 : ℚ) * 1999 ^ n = 10 * 2000 ^ n := by
    have hpos : ((2000 : ℚ) ^ n) ≠ 0 := by positivity
    field_simp at h
    linarith
  have h3 : ((300 * 1999 ^ n : ℕ) : ℚ) = ((10 * 2000 ^ n : ℕ) : ℚ) := by
    push_cast
    linarith
  have h4 : 300 * 1999 ^ n = 10 * 2000 ^ n := Nat.cast_injective h3
  have h5 : (300 * 1999 ^ n) % 8 = (10 * 2000 ^ n) % 8 := by rw [h4]
  cases n with
  | zero => simp at h4
  | succ m =>
      have hr : (10 * 2000 ^ (m + 1)) % 8 = 0 := by
        have : 8 ∣ 10 * 2000 ^ (m + 1) := by
          have : (8 : ℕ) ∣ 2000 ^ (m + 1) := dvd_pow (by norm_num) (Nat.succ_ne_zero m)
          exact Dvd.dvd.mul_left this 10
        omega
      have hp : 1999 ^ (m + 1) % 8 = 7 ^ (m + 1) % 8 := by
        conv_lhs => rw [Nat.pow_mod]
      have hl : (300 * 1999 ^ (m + 1)) % 8 = 4 := by
        rw [Nat.mul_mod, hp]
        rcases seven_pow_mod_eight (m + 1) with h7 | h7 <;> rw [h7]
      rw [hl, hr] at h5
      exact absurd h5 (by norm_num)

theorem epsSeq_closed_or_small (n : ℕ) :
    epsSeq n = epsilon0 * decay ^ n ∨ epsSeq n < epsilon_min := by
  induction n with
  | zero => left ; simp [epsSeq]
  | succ m ih =>
      rcases ih with h | h
      · by_cases hgt : epsSeq m > epsilon_min
        · left
          rw [epsSeq, if_pos hgt, qmul_eq, h, pow_succ]
          ring
        · right
          rw [epsSeq, if_neg hgt]
          rcases lt_or_eq_of_le (not_lt.mp hgt) with hlt | heq
          · exact hlt
          · exact absurd (h.symm.trans heq) (closed_form_ne_floor m)
      · right
        have hgt : ¬ epsSeq m > epsilon_min := not_lt.mpr (le_of_lt h)
        rw [epsSeq, if_neg hgt]
        exact h

theorem thirty_pow_lt : (30 : ℕ) * 1999 ^ 6801 < 2000 ^ 6801 := by
  have h3 : (6801 : ℕ) = 3 * 2267 := by norm_num
  rw [h3, pow_mul, pow_mul]
  have h1 : (1999 : ℕ) ^ 3 = 7988005999 := by norm_num
  have h2 : (2000 : ℕ) ^ 3 = 8000000000 := by norm_num
  rw [h1, h2]
  decide

/-- C4: the code updates epsilon with `if epsilon > epsilon_min: epsilon *=
decay` rather than `epsilon = max(epsilon_min, epsilon * decay)`; the final
multiplication undershoots the floor.  After 6801 episodes the exploration
rate is strictly below `epsilon_min` (and, the guard now failing, it stays
there).  This evaluates the embedded decay loop at the failing input. -/
theorem C4_epsilon_undershoots_floor : epsSeq 6801 < epsilon_min := by
  rcases epsSeq_closed_or_small 6801 with h | h
  · rw [h, epsilon0_val, decay_val, epsilon_min_val, div_pow]
    rw [div_mul_div_comm, div_lt_div_iff₀ (by positivity) (by norm_num)]
    have h30 : (300 : ℚ) * 1999 ^ 6801 < 10 * 2000 ^ 6801 := by
      have := thirty_pow_lt
      have hq : ((30 * 1999 ^ 6801 : ℕ) : ℚ) < ((2000 ^ 6801 : ℕ) : ℚ) := by
        exact_mod_cast this
      push_cast at hq
      linarith
    nlinarith [h30]
  · exact h

/- ===================== Q-table update rule (C1, C8 groundwork) ============= -/

/-- The Option-level view of one table cell: present iff both the state key
and its action entry exist. -/
def q_entry (Q : QTable) (state : String) (action : Nat) : Option ℚ :=
  dlookup ((dlookup Q state).getD []) action

theorem get_q_value_eq_entry (Q : QTable) (s : String) (a : Nat) :
    get_q_value Q s a = (q_entry Q s a).getD 0 := rfl

theorem get_q_value_dinsert_empty (Q : QTable) (s : String) (h : dlookup Q s = none)
    (t : String) (m : Nat) : get_q_value (dinsert Q s []) t m = get_q_value Q t m := by
  by_cases ht : t = s
  · subst ht
    rw [get_q_value, dlookup_dinsert_self, get_q_value, h]
    rfl
  · rw [get_q_value, dlookup_dinsert_ne Q s t [] ht, get_q_value]

theorem update_q_value_entry_self (Q : QTable) (s : String) (a : Nat) (r : ℚ)
    (s' : String) (M : List Nat) :
    q_entry (update_q_value Q s a r s' M) s a =
      some (get_q_value Q s a + alpha * (r + gamma *
        (if M = [] then 0 else listMax (M.map (fun m => get_q_value Q s' m))) -
          get_q_value Q s a)) := by
  cases hQ : dlookup Q s with
  | some inner =>
      simp only [update_q_value, hQ]
      rw [q_entry, dlookup_dinsert_self, Option.getD_some, dlookup_dinsert_self]
      congr 1
      rw [qadd_eq, qmul_eq, qadd_eq, qmul_eq, qsub_eq]
      cases M with
      | nil => simp [get_q_value, hQ]
      | cons m ms => simp [get_q_value, hQ]
  | none =>
      simp only [update_q_value, hQ]
      rw [q_entry, dlookup_dinsert_self, Option.getD_some, dlookup_dinsert_self]
      congr 1
      rw [qadd_eq, qmul_eq, qadd_eq, qmul_eq, qsub_eq]
      have hcur : get_q_value Q s a = 0 := by
        rw [get_q_value, hQ]
        rfl
      have hQ1 : dlookup (dinsert Q s ([] : List (Nat × ℚ))) s = some [] :=
        dlookup_dinsert_self Q s []
      rw [hQ1]
      cases M with
      | nil => simp [hcur, dlookup]
      | cons m ms =>
          simp only [hcur, dlookup, Option.getD_some]
          have hmap : ∀ L : List Nat,
              L.map (fun m => get_q_value (dinsert Q s []) s' m) =
                L.map (fun m => get_q_value Q s' m) := by
            intro L
            exact List.map_congr_left (fun x _ => get_q_value_dinsert_empty Q s hQ s' x)
          simp only [hmap]
          simp

theorem update_q_value_entry_frame (Q : QTable) (s : String) (a : Nat) (r : ℚ)
    (s' : String) (M : List Nat) (t : String) (b' : Nat) (h : ¬(t = s ∧ b' = a)) :
    q_entry (update_q_value Q s a r s' M) t b' = q_entry Q t b' := by
  by_cases ht : t = s
  · subst ht
    have hb : b' ≠ a := fun hb => h ⟨rfl, hb⟩
    cases hQ : dlookup Q t with
    | some inner =>
        simp only [update_q_value, hQ]
        rw [q_entry, dlookup_dinsert_self, Option.getD_some,
          dlookup_dinsert_ne _ _ _ _ hb, q_entry, hQ]
    | none =>
        simp only [update_q_value, hQ]
        rw [q_entry, dlookup_dinsert_self, Option.getD_some,
          dlookup_dinsert_ne _ _ _ _ hb, q_entry, hQ]
        rw [dlookup_dinsert_self, Option.getD_some]
        rfl
  · cases hQ : dlookup Q s with
    | some inner =>
        simp only [update_q_value, hQ]
        rw [q_entry, dlookup_dinsert_ne _ _ _ _ ht, q_entry]
    | none =>
        simp only [update_q_value, hQ]
        rw [q_entry, dlookup_dinsert_ne _ _ _ _ ht, dlookup_dinsert_ne _ _ _ _ ht, q_entry]

theorem update_q_value_get_frame (Q : QTable) (s : String) (a : Nat) (r : ℚ)
    (s' : String) (M : List Nat) (t : String) (b' : Nat) (h : ¬(t = s ∧ b' = a)) :
    get_q_value (update_q_value Q s a r s' M) t b' = get_q_value Q t b' := by
  rw [get_q_value_eq_entry, get_q_value_eq_entry,
    update_q_value_entry_frame Q s a r s' M t b' h]

theorem update_q_value_get_self (Q : QTable) (s : String) (a : Nat) (r : ℚ)
    (s' : String) (M : List Nat) :
    get_q_value (update_q_value Q s a r s' M) s a =
      get_q_value Q s a + alpha * (r + gamma *
        (if M = [] then 0 else listMax (M.map (fun m => get_q_value Q s' m))) -
          get_q_value Q s a) := by
  rw [get_q_value_eq_entry, update_q_value_entry_self]
  rfl

/-- C1: `update_q_value` sets `Q[s][a]` to
`old + alpha * (r + gamma * max_{m ∈ M} Q[s'][m] − old)` where `old` is the
stored value or 0.0 when absent, the bootstrapped term is 0.0 when `M` is
empty, the `(s, a)` entry is (lazily) present afterwards, and every other
table cell is unchanged even at the presence level. -/
theorem C1_update_rule (Q : QTable) (s : String) (a : Nat) (r : ℚ)
    (s' : String) (M : List Nat) :
    q_entry (update_q_value Q s a r s' M) s a =
      some (get_q_value Q s a + alpha * (r + gamma *
        (if M = [] then 0 else listMax (M.map (fun m => get_q_value Q s' m))) -
          get_q_value Q s a)) ∧
    (∀ t : String, ∀ b' : Nat, ¬(t = s ∧ b' = a) →
      q_entry (update_q_value Q s a r s' M) t b' = q_entry Q t b') :=
  ⟨update_q_value_entry_self Q s a r s' M,
   fun t b' h => update_q_value_entry_frame Q s a r s' M t b' h⟩

/-- C1 witness: the frame clause applied at a concrete other cell, and the
spec's own numeric check `Q[s][a]=0, reward=10, M=[]  ↦  update = alpha·10`. -/
theorem C1_update_rule_witness :
    q_entry (update_q_value [] "A" 4 10 "" []) "B" 0 = q_entry ([] : QTable) "B" 0 :=
  (C1_update_rule [] "A" 4 10 "" []).2 "B" 0 (by decide)

/-- C8: the claim is right that evaluation treats a missing file as fatal
with a user-facing exit, but training never actually loads an existing valid
table: `with open("qtable.pkl","rb"):` binds no name, so `pickle.load(f)`
raises `NameError` and the bare `except:` replaces the table with `{}`.
Evidence at the failing input (an existing, valid, non-empty table). -/
theorem C8_train_never_loads :
    train_load_q (FileState.valid [("         ", [(4, 1)])]) = [] ∧
    ([("         ", [(4, 1)])] : QTable) ≠ ([] : QTable) ∧
    test_load_q FileState.missing = LoadOutcome.fatalExit ∧
    test_load_q (FileState.valid [("         ", [(4, 1)])]) =
      LoadOutcome.loaded [("         ", [(4, 1)])] := by
  refine ⟨rfl, ?_, rfl, rfl⟩
  decide

/- ===================== Board restoration (C5) ===================== -/

theorem set_space_of_space : ∀ (l : List Char) (m : Nat), l.getD m '#' = ' ' → l.set m ' ' = l
  | [], _, h => by simp [List.getD] at h
  | c :: rest, 0, h => by
      simp [List.getD] at h
      simp [List.set, h]
  | c :: rest, m + 1, h => by
      simp only [List.getD_cons_succ] at h
      simp [List.set, set_space_of_space rest m h]

theorem mem_available_moves (b : Board) (m : Nat) (h : m ∈ available_moves b) :
    b.getD m '#' = ' ' ∧ m < 9 := by
  rw [available_moves] at h
  have h2 := List.mem_filter.mp h
  constructor
  · simpa using h2.2
  · exact List.mem_range.mp h2.1

theorem foldl_restore_general {α : Type} (step : α → Nat → α) (proj : α → Board)
    (hstep : ∀ a m, (proj a).getD m '#' = ' ' → proj (step a m) = proj a) :
    ∀ (ms : List Nat) (a : α), (∀ m ∈ ms, (proj a).getD m '#' = ' ') →
      proj (ms.foldl step a) = proj a := by
  intro ms
  induction ms with
  | nil => intro a _; rfl
  | cons m rest ih =>
      intro a h
      rw [List.foldl_cons]
      have hm : proj (step a m) = proj a := hstep a m (h m (List.mem_cons_self m rest))
      rw [ih (step a m) (fun x hx => hm ▸ h x (List.mem_cons_of_mem m hx)), hm]

theorem minimaxF_restores (f : Nat) : ∀ (b : Board) (im : Bool) (d : Nat),
    (minimaxF f b im d).2 = b := by
  induction f with
  | zero => intro b im d; rfl
  | succ f ih =>
      intro b im d
      have hmoves : ∀ m ∈ available_moves b, ((-999 : ℚ), b).2.getD m '#' = ' ' :=
        fun m hm => (mem_available_moves b m hm).1
      have hmoves' : ∀ m ∈ available_moves b, ((999 : ℚ), b).2.getD m '#' = ' ' :=
        fun m hm => (mem_available_moves b m hm).1
      simp only [minimaxF]
      split_ifs with h1 h2 h3 h4
      · rfl
      · rfl
      · rfl
      · exact foldl_restore_general _ Prod.snd
          (fun a m hm => by
            show ((minimaxF f (a.2.set m 'O') false (d + 1)).2.set m ' ') = a.2
            rw [ih (a.2.set m 'O') false (d + 1), List.set_set, set_space_of_space a.2 m hm])
          (available_moves b) ((-999 : ℚ), b) hmoves
      · exact foldl_restore_general _ Prod.snd
          (fun a m hm => by
            show ((minimaxF f (a.2.set m 'X') true (d + 1)).2.set m ' ') = a.2
            rw [ih (a.2.set m 'X') true (d + 1), List.set_set, set_space_of_space a.2 m hm])
          (available_moves b) ((999 : ℚ), b) hmoves'

theorem optimal_moveF_restores (b : Board) : (optimal_moveF b).2 = b := by
  rw [optimal_moveF]
  split_ifs with h1
  · rfl
  · show (List.foldl _ ((-999 : ℚ), (none : Option Nat), b) (available_moves b)).2.2 = b
    exact foldl_restore_general _ (fun a => a.2.2)
      (fun a m hm => by
        show (if (minimaxF 10 (a.2.2.set m 'O') false 0).1 > a.1
            then ((minimaxF 10 (a.2.2.set m 'O') false 0).1, some m,
              (minimaxF 10 (a.2.2.set m 'O') false 0).2.set m ' ')
            else (a.1, a.2.1, (minimaxF 10 (a.2.2.set m 'O') false 0).2.set m ' ')).2.2 = a.2.2
        split_ifs <;>
          · show (minimaxF 10 (a.2.2.set m 'O') false 0).2.set m ' ' = a.2.2
            rw [minimaxF_restores 10 (a.2.2.set m 'O') false 0, List.set_set,
              set_space_of_space a.2.2 m hm])
      (available_moves b) ((-999 : ℚ), (none : Option Nat), b)
      (fun m hm => (mem_available_moves b m hm).1)

/-- C5: the recursive search never leaves a mark on the board.  In the
board-threaded embedding of the source's in-place mutation, the board a call
to `minimax` (any fuel) or `optimal_move` leaves behind is cell-for-cell the
board it received: every speculative placement is undone on every return
path. -/
theorem C5_search_restores_board :
    (∀ (f : Nat) (b : Board) (im : Bool) (d : Nat), (minimaxF f b im d).2 = b) ∧
    (∀ b : Board, (optimal_moveF b).2 = b) :=
  ⟨fun f b im d => minimaxF_restores f b im d, fun b => optimal_moveF_restores b⟩

/- ============ Available-move accounting and fold purification ============ -/

theorem getD_oob (l : List Char) (m : Nat) (h : l.length ≤ m) : l.getD m '#' = '#' := by
  rw [List.getD_eq_getElem?_getD, List.getElem?_eq_none h]
  rfl

theorem lt_length_of_getD_space (l : List Char) (m : Nat) (h : l.getD m '#' = ' ') :
    m < l.length := by
  by_contra hc
  rw [getD_oob l m (by omega)] at h
  exact absurd h (by decide)

theorem getD_set_self (l : List Char) (m : Nat) (c : Char) (h : m < l.length) :
    (l.set m c).getD m '#' = c := by
  rw [List.getD_eq_getElem?_getD, List.getElem?_set_self h]
  rfl

theorem getD_set_ne (l : List Char) (m i : Nat) (c : Char) (h : i ≠ m) :
    (l.set m c).getD i '#' = l.getD i '#' := by
  rw [List.getD_eq_getElem?_getD, List.getD_eq_getElem?_getD,
    List.getElem?_set_ne (Ne.symm h)]

theorem available_moves_set (b : Board) (m : Nat) (c : Char) (hc : c ≠ ' ')
    (hlen : m < b.length) :
    available_moves (b.set m c) = (available_moves b).filter (fun i => i != m) := by
  rw [available_moves, available_moves, List.filter_filter]
  apply List.filter_congr
  intro i _
  by_cases him : i = m
  · subst him
    rw [getD_set_self b i c hlen]
    simp [hc]
  · rw [getD_set_ne b m i c him]
    simp [him]

theorem available_nodup (b : Board) : (available_moves b).Nodup :=
  List.Nodup.filter _ (List.nodup_range 9)

theorem available_sorted (b : Board) : (available_moves b).Pairwise (· < ·) :=
  List.Pairwise.filter _ (List.pairwise_lt_range 9)

theorem length_available_set (b : Board) (m : Nat) (c : Char) (hc : c ≠ ' ')
    (hm : m ∈ available_moves b) :
    (available_moves (b.set m c)).length = (available_moves b).length - 1 := by
  have hsp := (mem_available_moves b m hm).1
  have hlen := lt_length_of_getD_space b m hsp
  rw [available_moves_set b m c hc hlen,
    ← List.Nodup.erase_eq_filter (available_nodup b) m]
  exact List.length_erase_of_mem hm

theorem available_length_le (b : Board) : (available_moves b).length ≤ 9 := by
  calc (available_moves b).length ≤ (List.range 9).length := List.length_filter_le _ _
    _ = 9 := List.length_range 9

theorem available_ne_nil (b : Board) (hlen : b.length = 9) (hf : is_full b = false) :
    available_moves b ≠ [] := by
  have hmem : ' ' ∈ b := by
    rw [is_full] at hf
    have hcon : b.contains ' ' = true := by
      cases hcb : b.contains ' '
      · rw [hcb] at hf
        exact absurd hf (by decide)
      · rfl
    exact List.elem_iff.mp hcon
  obtain ⟨i, hi, hgi⟩ := List.mem_iff_getElem.mp hmem
  have h9 : i < 9 := by omega
  have hgd : b.getD i '#' = ' ' := by
    rw [List.getD_eq_getElem b '#' hi, hgi]
  intro hnil
  have hin : i ∈ available_moves b := by
    rw [available_moves, List.mem_filter]
    refine ⟨List.mem_range.mpr h9, ?_⟩
    simp only [beq_iff_eq]
    exact hgd
  rw [hnil] at hin
  exact absurd hin (List.not_mem_nil i)

theorem fold_max_pure (f d : Nat) :
    ∀ (ms : List Nat) (b : Board) (q : ℚ), (∀ m ∈ ms, b.getD m '#' = ' ') →
      (ms.foldl (fun acc m =>
          let r := minimaxF f (acc.2.set m 'O') false (d + 1)
          (max acc.1 r.1, r.2.set m ' ')) (q, b)).1 =
        ms.foldl (fun q' m => max q' ((minimaxF f (b.set m 'O') false (d + 1)).1)) q := by
  intro ms
  induction ms with
  | nil => intro b q _; rfl
  | cons m rest ih =>
      intro b q h
      have hb : (minimaxF f (b.set m 'O') false (d + 1)).2.set m ' ' = b := by
        rw [minimaxF_restores f (b.set m 'O') false (d + 1), List.set_set,
          set_space_of_space b m (h m (List.mem_cons_self m rest))]
      simp only [List.foldl_cons]
      rw [hb]
      exact ih b _ (fun x hx => h x (List.mem_cons_of_mem m hx))

theorem fold_min_pure (f d : Nat) :
    ∀ (ms : List Nat) (b : Board) (q : ℚ), (∀ m ∈ ms, b.getD m '#' = ' ') →
      (ms.foldl (fun acc m =>
          let r := minimaxF f (acc.2.set m 'X') true (d + 1)
          (min acc.1 r.1, r.2.set m ' ')) (q, b)).1 =
        ms.foldl (fun q' m => min q' ((minimaxF f (b.set m 'X') true (d + 1)).1)) q := by
  intro ms
  induction ms with
  | nil => intro b q _; rfl
  | cons m rest ih =>
      intro b q h
      have hb : (minimaxF f (b.set m 'X') true (d + 1)).2.set m ' ' = b := by
        rw [minimaxF_restores f (b.set m 'X') true (d + 1), List.set_set,
          set_space_of_space b m (h m (List.mem_cons_self m rest))]
      simp only [List.foldl_cons]
      rw [hb]
      exact ih b _ (fun x hx => h x (List.mem_cons_of_mem m hx))

/-- Pure incumbent loop underlying `optimal_move`: replace `(best, move)` only
on strict improvement. -/
def bestLoop (sc : Nat → ℚ) : List Nat → ℚ × Option Nat → ℚ × Option Nat
  | [], acc => acc
  | m :: ms, acc => bestLoop sc ms (if sc m > acc.1 then (sc m, some m) else acc)

theorem optimal_fold_pure :
    ∀ (ms : List Nat) (b : Board) (q : ℚ) (o : Option Nat),
      (∀ m ∈ ms, b.getD m '#' = ' ') →
      ms.foldl (fun acc m =>
          let s := minimaxF 10 (acc.2.2.set m 'O') false 0
          let b' := s.2.set m ' '
          if s.1 > acc.1 then (s.1, some m, b') else (acc.1, acc.2.1, b'))
        (q, o, b) =
      ((bestLoop (fun m => (minimaxF 10 (b.set m 'O') false 0).1) ms (q, o)).1,
       (bestLoop (fun m => (minimaxF 10 (b.set m 'O') false 0).1) ms (q, o)).2, b) := by
  intro ms
  induction ms with
  | nil => intro b q o _; rfl
  | cons m rest ih =>
      intro b q o h
      have hb : (minimaxF 10 (b.set m 'O') false 0).2.set m ' ' = b := by
        rw [minimaxF_restores 10 (b.set m 'O') false 0, List.set_set,
          set_space_of_space b m (h m (List.mem_cons_self m rest))]
      simp only [List.foldl_cons, bestLoop]
      rw [hb]
      by_cases hcmp : (minimaxF 10 (b.set m 'O') false 0).1 > q
      · rw [if_pos hcmp, if_pos hcmp]
        exact ih b _ _ (fun x hx => h x (List.mem_cons_of_mem m hx))
      · rw [if_neg hcmp, if_neg hcmp]
        exact ih b _ _ (fun x hx => h x (List.mem_cons_of_mem m hx))

theorem foldl_max_le_of (sc : Nat → ℚ) (C : ℚ) :
    ∀ (ms : List Nat) (q : ℚ), q ≤ C → (∀ m ∈ ms, sc m ≤ C) →
      ms.foldl (fun q' m => max q' (sc m)) q ≤ C := by
  intro ms
  induction ms with
  | nil => intro q hq _; exact hq
  | cons m rest ih =>
      intro q hq h
      rw [List.foldl_cons]
      exact ih _ (max_le hq (h m (List.mem_cons_self m rest)))
        (fun x hx => h x (List.mem_cons_of_mem m hx))

theorem le_foldl_max (sc : Nat → ℚ) :
    ∀ (ms : List Nat) (q : ℚ), q ≤ ms.foldl (fun q' m => max q' (sc m)) q := by
  intro ms
  induction ms with
  | nil => intro q; exact le_refl q
  | cons m rest ih =>
      intro q
      rw [List.foldl_cons]
      exact le_trans (le_max_left q (sc m)) (ih _)

theorem foldl_max_ge_elem (sc : Nat → ℚ) :
    ∀ (ms : List Nat) (q : ℚ) (m0 : Nat), m0 ∈ ms →
      sc m0 ≤ ms.foldl (fun q' m => max q' (sc m)) q := by
  intro ms
  induction ms with
  | nil => intro q m0 h; exact absurd h (List.not_mem_nil m0)
  | cons m rest ih =>
      intro q m0 h
      rw [List.foldl_cons]
      rcases List.mem_cons.mp h with h0 | h0
      · subst h0
        exact le_trans (le_max_right q (sc m0)) (le_foldl_max sc rest _)
      · exact ih _ m0 h0

theorem foldl_min_ge_of (sc : Nat → ℚ) (C : ℚ) :
    ∀ (ms : List Nat) (q : ℚ), C ≤ q → (∀ m ∈ ms, C ≤ sc m) →
      C ≤ ms.foldl (fun q' m => min q' (sc m)) q := by
  intro ms
  induction ms with
  | nil => intro q hq _; exact hq
  | cons m rest ih =>
      intro q hq h
      rw [List.foldl_cons]
      exact ih _ (le_min hq (h m (List.mem_cons_self m rest)))
        (fun x hx => h x (List.mem_cons_of_mem m hx))

theorem foldl_min_le (sc : Nat → ℚ) :
    ∀ (ms : List Nat) (q : ℚ), ms.foldl (fun q' m => min q' (sc m)) q ≤ q := by
  intro ms
  induction ms with
  | nil => intro q; exact le_refl q
  | cons m rest ih =>
      intro q
      rw [List.foldl_cons]
      exact le_trans (ih _) (min_le_left q (sc m))

theorem foldl_min_le_elem (sc : Nat → ℚ) :
    ∀ (ms : List Nat) (q : ℚ) (m0 : Nat), m0 ∈ ms →
      ms.foldl (fun q' m => min q' (sc m)) q ≤ sc m0 := by
  intro ms
  induction ms with
  | nil => intro q m0 h; exact absurd h (List.not_mem_nil m0)
  | cons m rest ih =>
      intro q m0 h
      rw [List.foldl_cons]
      rcases List.mem_cons.mp h with h0 | h0
      · subst h0
        exact le_trans (foldl_min_le sc rest _) (min_le_right q (sc m0))
      · exact ih _ m0 h0

theorem c001_val : (mkRat 1 100 : ℚ) = 1 / 100 := by
  rw [mkRat_as_div]
  norm_num

theorem minimaxF_range (f : Nat) : ∀ (b : Board) (im : Bool) (d : Nat),
    b.length = 9 → d + (available_moves b).length ≤ 200 →
    -1 ≤ (minimaxF f b im d).1 ∧ (minimaxF f b im d).1 ≤ 1 := by
  induction f with
  | zero =>
      intro b im d _ _
      exact ⟨by norm_num [minimaxF], by norm_num [minimaxF]⟩
  | succ f ih =>
      intro b im d hlen hd
      have hd200 : (d : ℚ) ≤ 200 := by
        have hn : d ≤ 200 := by omega
        exact_mod_cast hn
      have hd0 : (0 : ℚ) ≤ (d : ℚ) := Nat.cast_nonneg d
      have hmoves : ∀ m ∈ available_moves b, b.getD m '#' = ' ' :=
        fun m hm => (mem_available_moves b m hm).1
      have hrec : ∀ c : Char, c ≠ ' ' → ∀ m ∈ available_moves b, ∀ im' : Bool,
          -1 ≤ (minimaxF f (b.set m c) im' (d + 1)).1 ∧
            (minimaxF f (b.set m c) im' (d + 1)).1 ≤ 1 := by
        intro c hc m hm im'
        apply ih
        · rw [List.length_set]
          exact hlen
        · have hle := length_available_set b m c hc hm
          have hpos : 0 < (available_moves b).length := List.length_pos_of_mem hm
          omega
      simp only [minimaxF]
      split_ifs with h1 h2 h3 h4
      · have hO : -1 ≤ qsub 1 (qmul (d : ℚ) (mkRat 1 100)) ∧
            qsub 1 (qmul (d : ℚ) (mkRat 1 100)) ≤ 1 := by
          rw [qsub_eq, qmul_eq, c001_val]
          constructor
          · linarith
          · linarith
        exact hO
      · have hX : -1 ≤ qadd (-1) (qmul (d : ℚ) (mkRat 1 100)) ∧
            qadd (-1) (qmul (d : ℚ) (mkRat 1 100)) ≤ 1 := by
          rw [qadd_eq, qmul_eq, c001_val]
          constructor
          · linarith
          · linarith
        exact hX
      · exact ⟨by norm_num, by norm_num⟩
      · rw [fold_max_pure f d (available_moves b) b (-999) hmoves]
        have hne : available_moves b ≠ [] := available_ne_nil b hlen (by simpa using h3)
        obtain ⟨m0, hm0⟩ := List.exists_mem_of_ne_nil _ hne
        constructor
        · exact le_trans (hrec 'O' (by decide) m0 hm0 false).1
            (foldl_max_ge_elem _ (available_moves b) (-999) m0 hm0)
        · exact foldl_max_le_of _ 1 (available_moves b) (-999) (by norm_num)
            (fun m hm => (hrec 'O' (by decide) m hm false).2)
      · rw [fold_min_pure f d (available_moves b) b 999 hmoves]
        have hne : available_moves b ≠ [] := available_ne_nil b hlen (by simpa using h3)
        obtain ⟨m0, hm0⟩ := List.exists_mem_of_ne_nil _ hne
        constructor
        · exact foldl_min_ge_of _ (-1) (available_moves b) 999 (by norm_num)
            (fun m hm => (hrec 'X' (by decide) m hm true).1)
        · exact le_trans (foldl_min_le_elem _ (available_moves b) 999 m0 hm0)
            (hrec 'X' (by decide) m0 hm0 true).2

theorem bestLoop_spec (sc : Nat → ℚ) :
    ∀ (ms : List Nat) (v : ℚ) (o : Option Nat), ms.Pairwise (· < ·) →
      ((∀ x ∈ ms, sc x ≤ v) ∧ bestLoop sc ms (v, o) = (v, o)) ∨
      (∃ m, m ∈ ms ∧ v < sc m ∧
        (∀ e ∈ ms, e < m → sc e < sc m) ∧
        (∀ l ∈ ms, m < l → sc l ≤ sc m) ∧
        bestLoop sc ms (v, o) = (sc m, some m)) := by
  intro ms
  induction ms with
  | nil =>
      intro v o _
      left
      exact ⟨fun x hx => absurd hx (List.not_mem_nil x), rfl⟩
  | cons m0 rest ih =>
      intro v o hp
      have hp0 : ∀ x ∈ rest, m0 < x := (List.pairwise_cons.mp hp).1
      have hpr := (List.pairwise_cons.mp hp).2
      by_cases hc : sc m0 > v
      · have hun : bestLoop sc (m0 :: rest) (v, o) = bestLoop sc rest (sc m0, some m0) := by
          simp only [bestLoop]
          rw [if_pos hc]
        rcases ih (sc m0) (some m0) hpr with ⟨hall, heq⟩ | ⟨m, hm, hv, he, hl, heq⟩
        · right
          refine ⟨m0, List.mem_cons_self m0 rest, hc, ?_, ?_, ?_⟩
          · intro e he0 hlt
            rcases List.mem_cons.mp he0 with rfl | hmem
            · exact absurd hlt (lt_irrefl _)
            · exact absurd hlt (by have := hp0 e hmem; omega)
          · intro l hl0 hlt
            rcases List.mem_cons.mp hl0 with rfl | hmem
            · exact absurd hlt (lt_irrefl _)
            · exact hall l hmem
          · rw [hun, heq]
        · right
          refine ⟨m, List.mem_cons_of_mem m0 hm, lt_trans hc hv, ?_, ?_, ?_⟩
          · intro e he0 hlt
            rcases List.mem_cons.mp he0 with rfl | hmem
            · exact hv
            · exact he e hmem hlt
          · intro l hl0 hlt
            rcases List.mem_cons.mp hl0 with rfl | hmem
            · exact absurd hlt (by have := hp0 m hm; omega)
            · exact hl l hmem hlt
          · rw [hun, heq]
      · have hun : bestLoop sc (m0 :: rest) (v, o) = bestLoop sc rest (v, o) := by
          simp only [bestLoop]
          rw [if_neg hc]
        push_neg at hc
        rcases ih v o hpr with ⟨hall, heq⟩ | ⟨m, hm, hv, he, hl, heq⟩
        · left
          refine ⟨?_, by rw [hun, heq]⟩
          intro x hx
          rcases List.mem_cons.mp hx with rfl | hmem
          · exact hc
          · exact hall x hmem
        · right
          refine ⟨m, List.mem_cons_of_mem m0 hm, hv, ?_, ?_, by rw [hun, heq]⟩
          · intro e he0 hlt
            rcases List.mem_cons.mp he0 with rfl | hmem
            · exact lt_of_le_of_lt hc hv
            · exact he e hmem hlt
          · intro l hl0 hlt
            rcases List.mem_cons.mp hl0 with rfl | hmem
            · exact absurd hlt (by have := hp0 m hm; omega)
            · exact hl l hmem hlt

theorem optimal_move_eq_bestLoop (b : Board) :
    optimal_move b =
      (bestLoop (fun m => minimax (b.set m 'O') false 0) (available_moves b)
        ((-999 : ℚ), (none : Option Nat))).2 := by
  rw [optimal_move, optimal_moveF]
  split_ifs with h1
  · rw [h1]
    rfl
  · rw [show ((-999 : ℚ), (none : Option Nat), b) = ((-999 : ℚ), ((none : Option Nat), b))
      from rfl]
    rw [optimal_fold_pure (available_moves b) b (-999) none
      (fun m hm => (mem_available_moves b m hm).1)]
    rfl

theorem minimax_child_range (b : Board) (hlen : b.length = 9) (m : Nat) :
    -1 ≤ minimax (b.set m 'O') false 0 ∧ minimax (b.set m 'O') false 0 ≤ 1 :=
  minimaxF_range 10 (b.set m 'O') false 0 (by rw [List.length_set]; exact hlen)
    (by have := available_length_le (b.set m 'O'); omega)

/-- C10: on a 9-cell board with at least one empty cell, `optimal_move`
returns some move and that move is an empty cell; every top-level minimax
value lies in [−1, 1], strictly above the −999 incumbent, so the first
enumerated legal move always replaces the incumbent. -/
theorem C10_optimal_move_total :
    (∀ (b : Board) (im : Bool), b.length = 9 →
        -1 ≤ minimax b im 0 ∧ minimax b im 0 ≤ 1) ∧
    (∀ b : Board, b.length = 9 → available_moves b ≠ [] →
        ∃ m, optimal_move b = some m ∧ b.getD m '#' = ' ' ∧ m < 9) := by
  constructor
  · intro b im hlen
    exact minimaxF_range 10 b im 0 hlen (by have := available_length_le b; omega)
  · intro b hlen hne
    rcases bestLoop_spec (fun m => minimax (b.set m 'O') false 0) (available_moves b)
        (-999) none (available_sorted b) with ⟨hall, _⟩ | ⟨m, hm, _, _, _, heq⟩
    · obtain ⟨m0, hm0⟩ := List.exists_mem_of_ne_nil _ hne
      have h1 := hall m0 hm0
      have h2 := (minimax_child_range b hlen m0).1
      simp only at h1
      linarith
    · refine ⟨m, ?_, (mem_available_moves b m hm).1, (mem_available_moves b m hm).2⟩
      rw [optimal_move_eq_bestLoop b, heq]

/-- C10 witness: a concrete 9-cell board with one empty cell. -/
theorem C10_optimal_move_total_witness :
    (-1 ≤ minimax ['X','O','X','O','X','O',' ','X','O'] true 0 ∧
      minimax ['X','O','X','O','X','O',' ','X','O'] true 0 ≤ 1) ∧
    ∃ m, optimal_move ['X','O','X','O','X','O',' ','X','O'] = some m ∧
      (['X','O','X','O','X','O',' ','X','O'] : Board).getD m '#' = ' ' ∧ m < 9 :=
  ⟨C10_optimal_move_total.1 ['X','O','X','O','X','O',' ','X','O'] true (by decide),
   C10_optimal_move_total.2 ['X','O','X','O','X','O',' ','X','O'] (by decide) (by decide)⟩

/- ============ Winner-check characterization (C2, C7 groundwork) ============ -/

/-- `p` owns some winning triple on `b`. -/
def winsTriple (p : Char) (b : Board) : Prop :=
  ∃ t ∈ win_states, b.getD t.1 '#' = p ∧ b.getD t.2.1 '#' = p ∧ b.getD t.2.2 '#' = p

/-- A spec-conforming board: 9 cells over { blank, X, O }. -/
def validBoard (b : Board) : Prop :=
  b.length = 9 ∧ ∀ c ∈ b, c = ' ' ∨ c = 'X' ∨ c = 'O'

instance (p : Char) (b : Board) : Decidable (winsTriple p b) := by
  unfold winsTriple
  infer_instance

instance (b : Board) : Decidable (validBoard b) := by
  unfold validBoard
  infer_instance

theorem winsTriple_char_mem (b : Board) (hlen : b.length = 9) (c : Char)
    (hw : winsTriple c b) : c ∈ b := by
  obtain ⟨t, ht, h1, _, _⟩ := hw
  have ht9 : t.1 < 9 := by
    have hall : ∀ t ∈ win_states, t.1 < 9 := by decide
    exact hall t ht
  rw [← h1, List.getD_eq_getElem b '#' (by omega)]
  exact List.getElem_mem _

theorem check_winner_ne_none (b : Board) (p : Char) (hp : p ≠ ' ')
    (hw : winsTriple p b) : check_winner b ≠ none := by
  obtain ⟨t, ht, h1, h2, h3⟩ := hw
  have hfind : (win_states.find? (fun t =>
      (b.getD t.1 '#' == b.getD t.2.1 '#') && (b.getD t.2.1 '#' == b.getD t.2.2 '#')
        && !(b.getD t.1 '#' == ' '))).isSome := by
    rw [List.find?_isSome]
    refine ⟨t, ht, ?_⟩
    rw [h1, h2, h3]
    simp [hp]
  rw [check_winner]
  split
  · simp
  · next heq =>
      rw [heq] at hfind
      simp at hfind

theorem check_winner_some_inv (b : Board) (c : Char) (h : check_winner b = some c) :
    c ≠ ' ' ∧ winsTriple c b := by
  rw [check_winner] at h
  split at h
  · next t heq =>
      have hp := List.find?_some heq
      have hmem := List.mem_of_find?_eq_some heq
      simp only [Bool.and_eq_true, beq_iff_eq, Bool.not_eq_true', beq_eq_false_iff_ne] at hp
      obtain ⟨⟨h1, h2⟩, h3⟩ := hp
      have hc : b.getD t.1 '#' = c := Option.some.inj h
      constructor
      · rw [← hc]
        exact h3
      · exact ⟨t, hmem, hc, h1.symm.trans hc, (h1.trans h2).symm.trans hc⟩
  · exact absurd h (by simp)

theorem check_winner_eq_of_valid (b : Board) (hv : validBoard b) (p : Char)
    (hp : p = 'X' ∨ p = 'O') (hw : winsTriple p b)
    (hother : ∀ c, c ≠ ' ' → winsTriple c b → c = p) :
    check_winner b = some p := by
  have hne := check_winner_ne_none b p (by rcases hp with h | h <;> simp [h]) hw
  obtain ⟨c, hc⟩ := Option.ne_none_iff_exists'.mp hne
  obtain ⟨hcne, hcw⟩ := check_winner_some_inv b c hc
  rw [hc, hother c hcne hcw]

theorem minimax_terminal_O (b : Board) (im : Bool) (d : Nat)
    (h : check_winner b = some 'O') : minimax b im d = 1 - (d : ℚ) / 100 := by
  show (minimaxF (9 + 1) b im d).1 = _
  simp only [minimaxF]
  rw [if_pos h]
  show qsub 1 (qmul (d : ℚ) (mkRat 1 100)) = _
  rw [qsub_eq, qmul_eq, c001_val]
  ring

theorem minimax_terminal_X (b : Board) (im : Bool) (d : Nat)
    (h : check_winner b = some 'X') : minimax b im d = -1 + (d : ℚ) / 100 := by
  show (minimaxF (9 + 1) b im d).1 = _
  simp only [minimaxF]
  rw [if_neg (by rw [h]; simp), if_pos h]
  show qadd (-1) (qmul (d : ℚ) (mkRat 1 100)) = _
  rw [qadd_eq, qmul_eq, c001_val]
  ring

theorem minimax_terminal_draw (b : Board) (im : Bool) (d : Nat)
    (h1 : check_winner b = none) (h2 : is_full b = true) : minimax b im d = 0 := by
  show (minimaxF (9 + 1) b im d).1 = _
  simp only [minimaxF]
  rw [if_neg (by rw [h1]; simp), if_neg (by rw [h1]; simp), if_pos h2]

/-- C2 counterexample: on the board `XXX / OOO / ...` BOTH players have
winning triples; `check_winner` scans rows first, so minimax values the
position as an X win, −1 = −1 + 0.01·0, not as +1 − 0.01·0 although O has a
winning triple, contradicting the claim's "when O has a winning triple"
case read over every board. -/
theorem C2_counterexample :
    winsTriple 'O' ['X','X','X','O','O','O',' ',' ',' '] ∧
    minimax ['X','X','X','O','O','O',' ',' ',' '] true 0 = -1 ∧
    (-1 : ℚ) ≠ 1 - ((0 : Nat) : ℚ) / 100 := by
  refine ⟨by decide, by decide, by norm_num⟩

/-- C2 (amended): on spec-conforming boards (9 cells over blank/X/O) where at
most one player has a winning triple, minimax values a terminal position as
+1 − 0.01·depth when O has a winning triple, −1 + 0.01·depth when X has one,
and 0 when the board is full with no winning triple; `optimal_move` returns
the no-move sentinel exactly when no legal move exists, and otherwise the
first legal move, in ascending index order, whose minimax score strictly
exceeds every earlier move's score and weakly dominates every move (the
incumbent is replaced only on strict improvement). -/
theorem C2_minimax_terminal_and_first_argmax :
    (∀ (b : Board) (im : Bool) (d : Nat), validBoard b →
        winsTriple 'O' b → ¬ winsTriple 'X' b → minimax b im d = 1 - (d : ℚ) / 100) ∧
    (∀ (b : Board) (im : Bool) (d : Nat), validBoard b →
        winsTriple 'X' b → ¬ winsTriple 'O' b → minimax b im d = -1 + (d : ℚ) / 100) ∧
    (∀ (b : Board) (im : Bool) (d : Nat),
        (∀ p, p ≠ ' ' → ¬ winsTriple p b) → is_full b = true → minimax b im d = 0) ∧
    (∀ b : Board, b.length = 9 →
        (optimal_move b = none ↔ available_moves b = [])) ∧
    (∀ (b : Board) (m : Nat), b.length = 9 →
        (optimal_move b = some m ↔
          m ∈ available_moves b ∧
          (∀ m' ∈ available_moves b,
            minimax (b.set m' 'O') false 0 ≤ minimax (b.set m 'O') false 0) ∧
          (∀ m' ∈ available_moves b, m' < m →
            minimax (b.set m' 'O') false 0 < minimax (b.set m 'O') false 0))) := by
  refine ⟨?_, ?_, ?_, ?_, ?_⟩
  · intro b im d hv hO hX
    apply minimax_terminal_O
    apply check_winner_eq_of_valid b hv 'O' (Or.inr rfl) hO
    intro c hcne hcw
    rcases hv.2 c (winsTriple_char_mem b hv.1 c hcw) with h | h | h
    · exact absurd h hcne
    · exact absurd (h ▸ hcw) hX
    · exact h
  · intro b im d hv hX hO
    apply minimax_terminal_X
    apply check_winner_eq_of_valid b hv 'X' (Or.inl rfl) hX
    intro c hcne hcw
    rcases hv.2 c (winsTriple_char_mem b hv.1 c hcw) with h | h | h
    · exact absurd h hcne
    · exact h
    · exact absurd (h ▸ hcw) hO
  · intro b im d hno hfull
    refine minimax_terminal_draw b im d ?_ hfull
    cases hc : check_winner b with
    | none => rfl
    | some c =>
        obtain ⟨hcne, hcw⟩ := check_winner_some_inv b c hc
        exact absurd hcw (hno c hcne)
  · intro b hlen
    constructor
    · intro hnone
      by_contra hne
      rcases bestLoop_spec (fun m => minimax (b.set m 'O') false 0) (available_moves b)
          (-999) none (available_sorted b) with ⟨hall, _⟩ | ⟨m, hm, _, _, _, heq⟩
      · obtain ⟨m0, hm0⟩ := List.exists_mem_of_ne_nil _ hne
        have h1 := hall m0 hm0
        have h2 := (minimax_child_range b hlen m0).1
        simp only at h1
        linarith
      · rw [optimal_move_eq_bestLoop b, heq] at hnone
        exact absurd hnone (by simp)
    · intro h
      rw [optimal_move, optimal_moveF, if_pos h]
  · intro b m hlen
    constructor
    · intro hsome
      rw [optimal_move_eq_bestLoop b] at hsome
      rcases bestLoop_spec (fun m => minimax (b.set m 'O') false 0) (available_moves b)
          (-999) none (available_sorted b) with ⟨_, heq⟩ | ⟨m1, hm1, _, he, hl, heq⟩
      · rw [heq] at hsome
        exact absurd hsome (by simp)
      · rw [heq] at hsome
        have hm1m : m1 = m := Option.some.inj hsome
        subst hm1m
        refine ⟨hm1, ?_, ?_⟩
        · intro m' hm'
          rcases Nat.lt_trichotomy m' m1 with h | h | h
          · have := he m' hm' h
            simp only at this
            linarith
          · subst h
            exact le_refl _
          · have := hl m' hm' h
            simp only at this
            linarith
        · intro m' hm' hlt
          have := he m' hm' hlt
          simp only at this
          linarith
    · rintro ⟨hm, hmax, hstrict⟩
      rw [optimal_move_eq_bestLoop b]
      rcases bestLoop_spec (fun m => minimax (b.set m 'O') false 0) (available_moves b)
          (-999) none (available_sorted b) with ⟨hall, heq⟩ | ⟨m1, hm1, _, he, hl, heq⟩
      · have h1 := hall m hm
        have h2 := (minimax_child_range b hlen m).1
        simp only at h1
        linarith
      · rw [heq]
        have hm1m : m1 = m := by
          rcases Nat.lt_trichotomy m1 m with h | h | h
          · have ha := hstrict m1 hm1 h
            have hb := hl m hm h
            simp only at hb
            linarith
          · exact h
          · have ha := he m hm h
            have hb := hmax m1 hm1
            simp only at ha
            linarith
        rw [hm1m]
/-- C2 witness: the O-win terminal valuation at depth 3 on a concrete valid
board, and the no-move sentinel equivalence on a concrete one-empty board. -/
theorem C2_minimax_terminal_witness :
    minimax ['O','O','O','X','X',' ','X',' ',' '] false 3 = 1 - ((3 : Nat) : ℚ) / 100 ∧
    (optimal_move ['O','X','O','X','O','X','X',' ','X'] = none ↔
      available_moves ['O','X','O','X','O','X','X',' ','X'] = []) :=
  ⟨C2_minimax_terminal_and_first_argmax.1 ['O','O','O','X','X',' ','X',' ',' '] false 3
      (by decide) (by decide) (by decide),
   C2_minimax_terminal_and_first_argmax.2.2.2.1 ['O','X','O','X','O','X','X',' ','X']
      (by decide)⟩

/- ===================== Policy characterization (C6) ===================== -/

theorem foldl_bysnd_snd : ∀ (ps : List (Nat × ℚ)) (p : Nat × ℚ),
    (ps.foldl (fun acc x => if x.2 > acc.2 then x else acc) p).2 =
      ps.foldl (fun v x => max v x.2) p.2 := by
  intro ps
  induction ps with
  | nil => intro p; rfl
  | cons q rest ih =>
      intro p
      rw [List.foldl_cons, List.foldl_cons]
      by_cases h : q.2 > p.2
      · rw [if_pos h, max_eq_right (le_of_lt h)]
        exact ih q
      · rw [if_neg h, max_eq_left (not_lt.mp h)]
        exact ih p

theorem pyMaxBySnd_snd (g : Nat → ℚ) (m : Nat) (ms : List Nat) :
    (pyMaxBySnd ((m :: ms).map (fun x => (x, g x)))).2 =
      listMax ((m :: ms).map g) := by
  show ((ms.map (fun x => (x, g x))).foldl
      (fun acc x => if x.2 > acc.2 then x else acc) (m, g m)).2 = _
  rw [foldl_bysnd_snd, List.foldl_map]
  show ms.foldl (fun v x => max v (g x)) (g m) = listMax (g m :: ms.map g)
  rw [listMax, List.foldl_map]

theorem filter_map_fst (g : Nat → ℚ) (c : ℚ) : ∀ moves : List Nat,
    (((moves.map (fun m => (m, g m))).filter (fun p => decide (p.2 = c))).map
        (fun p => p.1)) =
      moves.filter (fun m => decide (g m = c)) := by
  intro moves
  induction moves with
  | nil => rfl
  | cons m rest ih =>
      by_cases h : g m = c
      · simp only [List.map_cons, List.filter_cons]
        rw [if_pos (by simpa using h), if_pos (by simpa using h), List.map_cons, ih]
      · simp only [List.map_cons, List.filter_cons]
        rw [if_neg (by simpa using h), if_neg (by simpa using h), ih]

theorem pyMaxByKey_mem_val (f : Nat → ℚ) : ∀ (ms : List Nat) (m : Nat),
    (ms.foldl (fun acc x => if f x > f acc then x else acc) m) ∈ (m :: ms) ∧
    f (ms.foldl (fun acc x => if f x > f acc then x else acc) m) =
      ms.foldl (fun v x => max v (f x)) (f m) := by
  intro ms
  induction ms with
  | nil => intro m; exact ⟨List.mem_cons_self m [], rfl⟩
  | cons x rest ih =>
      intro m
      rw [List.foldl_cons, List.foldl_cons]
      by_cases h : f x > f m
      · rw [if_pos h, max_eq_right (le_of_lt h)]
        obtain ⟨hmem, hval⟩ := ih x
        refine ⟨?_, hval⟩
        rcases List.mem_cons.mp hmem with h0 | h0
        · rw [h0]
          exact List.mem_cons_of_mem m (List.mem_cons_self x rest)
        · exact List.mem_cons_of_mem m (List.mem_cons_of_mem x h0)
      · rw [if_neg h, max_eq_left (not_lt.mp h)]
        obtain ⟨hmem, hval⟩ := ih m
        refine ⟨?_, hval⟩
        rcases List.mem_cons.mp hmem with h0 | h0
        · rw [h0]
          exact List.mem_cons_self m (x :: rest)
        · exact List.mem_cons_of_mem m (List.mem_cons_of_mem x h0)

/-- C6: in training mode `choose_action` hands `random.choice` exactly the
full legal-move list with probability ε (`u < ε`), and otherwise exactly the
list of legal moves whose stored value ties the maximum (so the tie-break is
uniform over all maxima); the evaluation policy always exploits (its result
is a legal move attaining the maximal stored value), and falls back to a
uniformly random legal move when the state key is absent.  `pick` models
`random.choice` over whatever list the code passes it. -/
theorem C6_policy :
    (∀ (eps u : ℚ) (Q : QTable) (pick : List Nat → Nat) (state : String)
        (moves : List Nat), u < eps →
        choose_action eps Q pick u state moves = pick moves) ∧
    (∀ (eps u : ℚ) (Q : QTable) (pick : List Nat → Nat) (state : String)
        (m : Nat) (ms : List Nat), ¬ u < eps →
        choose_action eps Q pick u state (m :: ms) =
          pick ((m :: ms).filter (fun x =>
            decide (get_q_value Q state x =
              listMax ((m :: ms).map (fun x' => get_q_value Q state x')))))) ∧
    (∀ (Q : QTable) (pick : List Nat → Nat) (state : String) (moves : List Nat),
        dlookup Q state = none → choose_action_eval Q pick state moves = pick moves) ∧
    (∀ (Q : QTable) (pick : List Nat → Nat) (state : String) (m : Nat)
        (ms : List Nat) (inner : List (Nat × ℚ)), dlookup Q state = some inner →
        choose_action_eval Q pick state (m :: ms) ∈ (m :: ms) ∧
        get_q_value Q state (choose_action_eval Q pick state (m :: ms)) =
          listMax ((m :: ms).map (fun x' => get_q_value Q state x'))) := by
  refine ⟨?_, ?_, ?_, ?_⟩
  · intro eps u Q pick state moves h
    rw [choose_action, if_pos h]
  · intro eps u Q pick state m ms h
    rw [choose_action, if_neg h]
    show pick (((((m :: ms).map (fun x => (x, get_q_value Q state x))).filter
          (fun p => decide (p.2 =
            (pyMaxBySnd ((m :: ms).map (fun x => (x, get_q_value Q state x)))).2))).map
          (fun p => p.1))) = _
    rw [pyMaxBySnd_snd (fun x => get_q_value Q state x) m ms]
    rw [filter_map_fst (fun x => get_q_value Q state x)
      (listMax ((m :: ms).map (fun x' => get_q_value Q state x'))) (m :: ms)]
  · intro Q pick state moves h
    rw [choose_action_eval, h]
  · intro Q pick state m ms inner h
    have hval : ∀ a : Nat, (dlookup inner a).getD 0 = get_q_value Q state a := by
      intro a
      rw [get_q_value, h]
      rfl
    have hswap : pyMaxByKey (fun a => (dlookup inner a).getD 0) (m :: ms) =
        pyMaxByKey (fun a => get_q_value Q state a) (m :: ms) := by
      rw [pyMaxByKey, pyMaxByKey]
      simp only [hval]
    simp only [choose_action_eval, h]
    rw [hswap]
    obtain ⟨hmem, hv⟩ :=
      pyMaxByKey_mem_val (fun a => get_q_value Q state a) ms m
    refine ⟨hmem, ?_⟩
    show get_q_value Q state
        (ms.foldl (fun acc x =>
          if get_q_value Q state x > get_q_value Q state acc then x else acc) m) = _
    rw [hv, List.map_cons, listMax, List.foldl_map]

/-- C6 witness: all four policy clauses applied at concrete inputs. -/
theorem C6_policy_witness :
    (choose_action (mkRat 1 2) [] (fun l => l.headD 0) (mkRat 1 4) "s" [3, 4] =
      (fun l => (l.headD 0 : Nat)) [3, 4]) ∧
    (choose_action (mkRat 1 2) [] (fun l => l.headD 0) (mkRat 3 4) "s" (3 :: [4]) =
      (fun l => (l.headD 0 : Nat)) ((3 :: [4]).filter (fun x =>
        decide (get_q_value [] "s" x =
          listMax ((3 :: [4]).map (fun x' => get_q_value [] "s" x')))))) ∧
    (choose_action_eval [] (fun l => l.headD 0) "s" [3, 4] =
      (fun l => (l.headD 0 : Nat)) [3, 4]) ∧
    (choose_action_eval [("s", [(4, 2)])] (fun l => l.headD 0) "s" (3 :: [4]) ∈
        (3 :: [4] : List Nat) ∧
      get_q_value [("s", [(4, 2)])] "s"
          (choose_action_eval [("s", [(4, 2)])] (fun l => l.headD 0) "s" (3 :: [4])) =
        listMax ((3 :: [4]).map (fun x' => get_q_value [("s", [(4, 2)])] "s" x'))) :=
  ⟨C6_policy.1 (mkRat 1 2) (mkRat 1 4) [] (fun l => l.headD 0) "s" [3, 4] (by decide),
   C6_policy.2.1 (mkRat 1 2) (mkRat 3 4) [] (fun l => l.headD 0) "s" 3 [4] (by decide),
   C6_policy.2.2.1 [] (fun l => l.headD 0) "s" [3, 4] (by decide),
   C6_policy.2.2.2 [("s", [(4, 2)])] (fun l => l.headD 0) "s" 3 [4] [(4, 2)] (by decide)⟩

/- ===================== Winner uniqueness on reachable boards (C7) ========== -/

/-- Game-reachable training boards: play starts from the empty board, X moves
when the piece counts are equal, O when X is one ahead, moves go to empty
cells, and play stops as soon as `check_winner` reports a winner (as the
episode loops do). -/
inductive Reachable : Board → Prop
  | empty : Reachable init_board
  | moveX (b : Board) (m : Nat) : Reachable b → check_winner b = none →
      m ∈ available_moves b → b.count 'X' = b.count 'O' →
      Reachable (b.set m 'X')
  | moveO (b : Board) (m : Nat) : Reachable b → check_winner b = none →
      m ∈ available_moves b → b.count 'X' = b.count 'O' + 1 →
      Reachable (b.set m 'O')

theorem getD_set_preserve (b : Board) (m i : Nat) (c p : Char) (hm : m < b.length)
    (hne : p ≠ c) (h : (b.set m c).getD i '#' = p) : b.getD i '#' = p := by
  by_cases him : i = m
  · subst him
    rw [getD_set_self b i c hm] at h
    exact absurd h.symm hne
  · rw [getD_set_ne b m i c him] at h
    exact h

theorem reachable_no_double_win (b : Board) (h : Reachable b) :
    ¬ (winsTriple 'X' b ∧ winsTriple 'O' b) := by
  induction h with
  | empty =>
      rintro ⟨hX, _⟩
      exact absurd hX (by decide)
  | moveX b m hr hw hm hc ih =>
      rintro ⟨_, hO⟩
      have hmlen : m < b.length :=
        lt_length_of_getD_space b m (mem_available_moves b m hm).1
      obtain ⟨t, ht, h1, h2, h3⟩ := hO
      have hb : winsTriple 'O' b :=
        ⟨t, ht, getD_set_preserve b m t.1 'X' 'O' hmlen (by decide) h1,
          getD_set_preserve b m t.2.1 'X' 'O' hmlen (by decide) h2,
          getD_set_preserve b m t.2.2 'X' 'O' hmlen (by decide) h3⟩
      exact check_winner_ne_none b 'O' (by decide) hb hw
  | moveO b m hr hw hm hc ih =>
      rintro ⟨hX, _⟩
      have hmlen : m < b.length :=
        lt_length_of_getD_space b m (mem_available_moves b m hm).1
      obtain ⟨t, ht, h1, h2, h3⟩ := hX
      have hb : winsTriple 'X' b :=
        ⟨t, ht, getD_set_preserve b m t.1 'O' 'X' hmlen (by decide) h1,
          getD_set_preserve b m t.2.1 'O' 'X' hmlen (by decide) h2,
          getD_set_preserve b m t.2.2 'O' 'X' hmlen (by decide) h3⟩
      exact check_winner_ne_none b 'X' (by decide) hb hw

theorem train_pred_iff (b : Board) (t : Nat × Nat × Nat) :
    ((b.getD t.1 '#' == b.getD t.2.1 '#') && (b.getD t.2.1 '#' == b.getD t.2.2 '#')
      && !(b.getD t.1 '#' == ' ')) = true ↔
    (b.getD t.1 '#' = b.getD t.2.1 '#' ∧ b.getD t.2.1 '#' = b.getD t.2.2 '#' ∧
      b.getD t.1 '#' ≠ ' ') := by
  simp only [Bool.and_eq_true, beq_iff_eq, Bool.not_eq_true', beq_eq_false_iff_ne]
  constructor
  · rintro ⟨⟨h1, h2⟩, h3⟩
    exact ⟨h1, h2, h3⟩
  · rintro ⟨h1, h2, h3⟩
    exact ⟨⟨h1, h2⟩, h3⟩

theorem gui_pred_iff (b : GBoard) (t : Nat × Nat × Nat) :
    ((b.getD t.1 5 == b.getD t.2.1 5) && (b.getD t.2.1 5 == b.getD t.2.2 5)
      && !(b.getD t.1 5 == 0)) = true ↔
    (b.getD t.1 5 = b.getD t.2.1 5 ∧ b.getD t.2.1 5 = b.getD t.2.2 5 ∧
      b.getD t.1 5 ≠ 0) := by
  simp only [Bool.and_eq_true, beq_iff_eq, Bool.not_eq_true', beq_eq_false_iff_ne]
  constructor
  · rintro ⟨⟨h1, h2⟩, h3⟩
    exact ⟨h1, h2, h3⟩
  · rintro ⟨h1, h2, h3⟩
    exact ⟨⟨h1, h2⟩, h3⟩

theorem check_winner_none_of_no_triple (b : Board)
    (hno : ∀ t ∈ win_states, ¬(b.getD t.1 '#' = b.getD t.2.1 '#' ∧
      b.getD t.2.1 '#' = b.getD t.2.2 '#' ∧ b.getD t.1 '#' ≠ ' ')) :
    check_winner b = none := by
  rw [check_winner]
  have hf : win_states.find? (fun t =>
      (b.getD t.1 '#' == b.getD t.2.1 '#') && (b.getD t.2.1 '#' == b.getD t.2.2 '#')
        && !(b.getD t.1 '#' == ' ')) = none :=
    List.find?_eq_none.mpr (fun t ht hp => hno t ht ((train_pred_iff b t).mp hp))
  rw [hf]

theorem check_winner_gui_draw_iff (b : GBoard) :
    check_winner_gui b = some 0 ↔
      (b.contains 0 = false ∧ ∀ t ∈ win_states,
        ¬(b.getD t.1 5 = b.getD t.2.1 5 ∧ b.getD t.2.1 5 = b.getD t.2.2 5 ∧
          b.getD t.1 5 ≠ 0)) := by
  rw [check_winner_gui]
  cases hf : win_states.find? (fun t =>
      (b.getD t.1 5 == b.getD t.2.1 5) && (b.getD t.2.1 5 == b.getD t.2.2 5)
        && !(b.getD t.1 5 == 0)) with
  | some t =>
      have hpb := List.find?_some hf
      have hp := (gui_pred_iff b t).mp hpb
      constructor
      · intro h
        exact absurd (Option.some.inj h) hp.2.2
      · rintro ⟨_, hno⟩
        exact absurd hp (hno t (List.mem_of_find?_eq_some hf))
  | none =>
      have hnone := List.find?_eq_none.mp hf
      constructor
      · intro h
        split_ifs at h with hfull
        refine ⟨by simpa using hfull, fun t ht hprops => ?_⟩
        exact hnone t ht ((gui_pred_iff b t).mpr hprops)
      · rintro ⟨hfull, _⟩
        rw [if_pos (by rw [hfull]; rfl)]

/-- C7 counterexample: a full drawn gui.py board; its `check_winner` returns
the draw marker `0` although no triple is monochrome non-blank, contradicting
the claim's "never a draw marker — fullness is checked separately by
callers", which is false for the cited gui.py variant. -/
theorem C7_counterexample :
    check_winner_gui [1, 1, -1, -1, -1, 1, 1, -1, 1] = some 0 ∧
    (∀ t ∈ win_states,
      ¬(([1, 1, -1, -1, -1, 1, 1, -1, 1] : GBoard).getD t.1 5 =
          ([1, 1, -1, -1, -1, 1, 1, -1, 1] : GBoard).getD t.2.1 5 ∧
        ([1, 1, -1, -1, -1, 1, 1, -1, 1] : GBoard).getD t.2.1 5 =
          ([1, 1, -1, -1, -1, 1, 1, -1, 1] : GBoard).getD t.2.2 5 ∧
        ([1, 1, -1, -1, -1, 1, 1, -1, 1] : GBoard).getD t.1 5 ≠ 0)) := by
  refine ⟨by decide, by decide⟩

/-- C7 (amended): the train.py / test.py winner check returns a player only
when that (non-blank) player owns one of the 8 triples, returns `none` on
every board without a monochrome non-blank triple (never a draw marker —
fullness is the callers' job); gui.py's variant instead returns the draw
marker `0` exactly on full boards without a winning triple.  On every
reachable board at most one player has a winning triple, and the empty board
has no winner. -/
theorem C7_check_winner_characterization :
    (∀ (b : Board) (c : Char), check_winner b = some c → c ≠ ' ' ∧ winsTriple c b) ∧
    (∀ b : Board, (∀ t ∈ win_states, ¬(b.getD t.1 '#' = b.getD t.2.1 '#' ∧
        b.getD t.2.1 '#' = b.getD t.2.2 '#' ∧ b.getD t.1 '#' ≠ ' ')) →
      check_winner b = none) ∧
    (∀ b : GBoard, check_winner_gui b = some 0 ↔
      (b.contains 0 = false ∧ ∀ t ∈ win_states,
        ¬(b.getD t.1 5 = b.getD t.2.1 5 ∧ b.getD t.2.1 5 = b.getD t.2.2 5 ∧
          b.getD t.1 5 ≠ 0))) ∧
    (∀ b : Board, Reachable b → ¬ (winsTriple 'X' b ∧ winsTriple 'O' b)) ∧
    check_winner init_board = none :=
  ⟨fun b c h => check_winner_some_inv b c h,
   fun b hno => check_winner_none_of_no_triple b hno,
   fun b => check_winner_gui_draw_iff b,
   fun b h => reachable_no_double_win b h,
   by decide⟩

/-- C7 witness: the reachability clause at the empty board and the no-triple
clause at a concrete two-stone board. -/
theorem C7_check_winner_witness :
    ¬ (winsTriple 'X' init_board ∧ winsTriple 'O' init_board) ∧
    check_winner [' ', 'X', ' ', ' ', ' ', ' ', ' ', ' ', 'O'] = none :=
  ⟨C7_check_winner_characterization.2.2.2.1 init_board Reachable.empty,
   C7_check_winner_characterization.2.1 [' ', 'X', ' ', ' ', ' ', ' ', ' ', ' ', 'O']
     (by decide)⟩

/- ============== Terminal reward propagation (C3) ============== -/

/-- Legal moves read back from a state key (a state key is the board
serialization, so a blank character marks a legal cell). -/
def movesOfKey (s : String) : List Nat :=
  (List.range 9).filter (fun i => s.data.getD i '#' == ' ')

/-- Modelled from the spec: "a single terminal reward … is propagated
backward through the episode's full move history via repeated application of
the update rule, with the bootstrapped next-state term correctly chained from
the position closer to the end backward to the start (later positions serve
as the next state for earlier ones)".  The history is processed back to
front; every entry is updated with the single reward `R`; the last entry's
transition is terminal and each earlier entry's next state is the following
entry's state with its legal moves.  (The argument list is the reversed
history.) -/
def specChainedGo (R : ℚ) : QTable → List (String × Nat) → String → List Nat → QTable
  | Q, [], _, _ => Q
  | Q, (s, a) :: rest, ns, nm =>
      specChainedGo R (update_q_value Q s a R ns nm) rest s (movesOfKey s)

/-- Modelled from the spec (see `specChainedGo`). -/
def specChainedPropagate (R : ℚ) (Q : QTable) (hist : List (String × Nat)) : QTable :=
  specChainedGo R Q hist.reverse "" []

theorem terminal_update_get_self (Q : QTable) (s : String) (a : Nat) (r : ℚ) :
    get_q_value (update_q_value Q s a r "" []) s a =
      get_q_value Q s a + alpha * (r - get_q_value Q s a) := by
  rw [update_q_value_get_self Q s a r "" [], if_pos rfl]
  ring

theorem win_reward_val (n i : Nat) :
    qadd 10 (qmul (qsub (n : ℚ) (i : ℚ)) (mkRat 1 10)) =
      10 + ((n : ℚ) - (i : ℚ)) / 10 := by
  rw [qadd_eq, qmul_eq, qsub_eq, mkRat_as_div]
  push_cast
  ring

theorem winGo_frame (n : Nat) : ∀ (hist : List (String × Nat)) (i0 : Nat) (Q : QTable)
    (s : String) (a : Nat), (s, a) ∉ hist →
    get_q_value (winBranchGo n i0 Q hist) s a = get_q_value Q s a := by
  intro hist
  induction hist with
  | nil => intro i0 Q s a _; rfl
  | cons p rest ih =>
      intro i0 Q s a h
      obtain ⟨ps, pa⟩ := p
      rw [winBranchGo]
      rw [ih (i0 + 1) _ s a (fun hmem => h (List.mem_cons_of_mem _ hmem))]
      exact update_q_value_get_frame Q ps pa _ "" [] s a
        (fun ⟨hs, ha⟩ => h (by rw [hs, ha]; exact List.mem_cons_self _ _))

theorem winGo_get (n : Nat) : ∀ (hist : List (String × Nat)) (i0 : Nat) (Q : QTable),
    hist.Nodup → ∀ (j : Nat) (hj : j < hist.length),
    get_q_value (winBranchGo n i0 Q hist) (hist.get ⟨j, hj⟩).1 (hist.get ⟨j, hj⟩).2 =
      get_q_value Q (hist.get ⟨j, hj⟩).1 (hist.get ⟨j, hj⟩).2 +
        alpha * ((10 + ((n : ℚ) - ((i0 + j : Nat) : ℚ)) / 10) -
          get_q_value Q (hist.get ⟨j, hj⟩).1 (hist.get ⟨j, hj⟩).2) := by
  intro hist
  induction hist with
  | nil => intro i0 Q _ j hj; exact absurd hj (by simp)
  | cons p rest ih =>
      intro i0 Q hnd j hj
      obtain ⟨ps, pa⟩ := p
      have hnotin : (ps, pa) ∉ rest := (List.nodup_cons.mp hnd).1
      cases j with
      | zero =>
          rw [winBranchGo]
          show get_q_value (winBranchGo n (i0 + 1) _ rest) ps pa = _
          rw [winGo_frame n rest (i0 + 1) _ ps pa hnotin, terminal_update_get_self,
            win_reward_val n i0]
          norm_num
      | succ j' =>
          have hj' : j' < rest.length := by
            have hh := hj
            simp only [List.length_cons] at hh
            omega
          rw [winBranchGo]
          show get_q_value (winBranchGo n (i0 + 1) _ rest)
              (rest.get ⟨j', hj'⟩).1 (rest.get ⟨j', hj'⟩).2 = _
          rw [ih (i0 + 1) _ (List.nodup_cons.mp hnd).2 j' hj']
          have hentry : (rest.get ⟨j', hj'⟩) ∈ rest := List.get_mem rest j' hj'
          have hne : ¬((rest.get ⟨j', hj'⟩).1 = ps ∧
              (rest.get ⟨j', hj'⟩).2 = pa) := by
            rintro ⟨h1, h2⟩
            apply hnotin
            have heq : (rest.get ⟨j', hj'⟩) = (ps, pa) := Prod.ext h1 h2
            rw [← heq]
            exact hentry
          rw [update_q_value_get_frame Q ps pa _ "" [] _ _ hne]
          have hidx : i0 + 1 + j' = i0 + (j' + 1) := by omega
          rw [hidx]
          rfl

theorem constSweep_frame (r : ℚ) : ∀ (hist : List (String × Nat)) (Q : QTable)
    (s : String) (a : Nat), (s, a) ∉ hist →
    get_q_value (hist.foldl (fun acc p => update_q_value acc p.1 p.2 r "" []) Q) s a =
      get_q_value Q s a := by
  intro hist
  induction hist with
  | nil => intro Q s a _; rfl
  | cons p rest ih =>
      intro Q s a h
      rw [List.foldl_cons]
      rw [ih _ s a (fun hmem => h (List.mem_cons_of_mem _ hmem))]
      exact update_q_value_get_frame Q p.1 p.2 r "" [] s a
        (fun ⟨hs, ha⟩ => h (by
          have : (s, a) = p := Prod.ext hs ha
          rw [this]
          exact List.mem_cons_self _ _))

theorem constSweep_get (r : ℚ) : ∀ (hist : List (String × Nat)) (Q : QTable),
    hist.Nodup → ∀ (j : Nat) (hj : j < hist.length),
    get_q_value (hist.foldl (fun acc p => update_q_value acc p.1 p.2 r "" []) Q)
        (hist.get ⟨j, hj⟩).1 (hist.get ⟨j, hj⟩).2 =
      get_q_value Q (hist.get ⟨j, hj⟩).1 (hist.get ⟨j, hj⟩).2 +
        alpha * (r - get_q_value Q (hist.get ⟨j, hj⟩).1 (hist.get ⟨j, hj⟩).2) := by
  intro hist
  induction hist with
  | nil => intro Q _ j hj; exact absurd hj (by simp)
  | cons p rest ih =>
      intro Q hnd j hj
      obtain ⟨ps, pa⟩ := p
      have hnotin : (ps, pa) ∉ rest := (List.nodup_cons.mp hnd).1
      cases j with
      | zero =>
          rw [List.foldl_cons]
          show get_q_value (rest.foldl _ _) ps pa = _
          rw [constSweep_frame r rest _ ps pa hnotin]
          exact terminal_update_get_self Q ps pa r
      | succ j' =>
          have hj' : j' < rest.length := by
            have hh := hj
            simp only [List.length_cons] at hh
            omega
          rw [List.foldl_cons]
          show get_q_value (rest.foldl _ _)
              (rest.get ⟨j', hj'⟩).1 (rest.get ⟨j', hj'⟩).2 = _
          rw [ih _ (List.nodup_cons.mp hnd).2 j' hj']
          have hentry : (rest.get ⟨j', hj'⟩) ∈ rest := List.get_mem rest j' hj'
          have hne : ¬((rest.get ⟨j', hj'⟩).1 = ps ∧
              (rest.get ⟨j', hj'⟩).2 = pa) := by
            rintro ⟨h1, h2⟩
            apply hnotin
            have heq : (rest.get ⟨j', hj'⟩) = (ps, pa) := Prod.ext h1 h2
            rw [← heq]
            exact hentry
          rw [update_q_value_get_frame Q ps pa r "" [] _ _ hne]
          rfl

theorem mkRat_9101 : (mkRat 9101 100 : ℚ) = 9101 / 100 := by
  rw [mkRat_as_div]
  norm_num

theorem mkRat_51 : (mkRat 51 50 : ℚ) = 51 / 50 := by
  rw [mkRat_as_div]
  norm_num

/-- C3 counterexample: on a concrete two-entry win history, train.py's win
branch cannot be reproduced by the spec's scheme "one single terminal reward
R propagated backward through the full history with the bootstrapped
next-state term chained" for ANY R: the win branch gives every entry a
terminal (unchained) transition with per-entry rewards 10.2 and 10.1, while
the chained scheme couples the earlier entry's update to the later entry's
value. -/
theorem C3_counterexample :
    ¬ ∃ R : ℚ, ∀ (s : String) (a : Nat),
      get_q_value (specChainedPropagate R [("XOXO OXOX", [(4, 100)])]
          [("         ", 0), ("XOXO OXOX", 4)]) s a =
      get_q_value (winBranch [("XOXO OXOX", [(4, 100)])]
          [("         ", 0), ("XOXO OXOX", 4)]) s a := by
  rintro ⟨R, hR⟩
  have h1 := hR "XOXO OXOX" 4
  have h0 := hR "         " 0
  have hrev : specChainedPropagate R [("XOXO OXOX", [(4, 100)])]
      [("         ", 0), ("XOXO OXOX", 4)] =
      update_q_value
        (update_q_value [("XOXO OXOX", [(4, 100)])] "XOXO OXOX" 4 R "" [])
        "         " 0 R "XOXO OXOX" [4] := rfl
  rw [hrev] at h1 h0
  have hbase : get_q_value [("XOXO OXOX", [(4, 100)])] "XOXO OXOX" 4 = 100 := by decide
  have hq1 : get_q_value
      (update_q_value [("XOXO OXOX", [(4, 100)])] "XOXO OXOX" 4 R "" [])
      "XOXO OXOX" 4 = 100 + alpha * (R - 100) := by
    rw [terminal_update_get_self, hbase]
  have hfr1 : get_q_value (update_q_value
      (update_q_value [("XOXO OXOX", [(4, 100)])] "XOXO OXOX" 4 R "" [])
      "         " 0 R "XOXO OXOX" [4]) "XOXO OXOX" 4 =
      get_q_value (update_q_value [("XOXO OXOX", [(4, 100)])] "XOXO OXOX" 4 R "" [])
        "XOXO OXOX" 4 :=
    update_q_value_get_frame _ "         " 0 R "XOXO OXOX" [4] "XOXO OXOX" 4 (by decide)
  have hw1 : get_q_value (winBranch [("XOXO OXOX", [(4, 100)])]
      [("         ", 0), ("XOXO OXOX", 4)]) "XOXO OXOX" 4 = mkRat 9101 100 := by decide
  have hw0 : get_q_value (winBranch [("XOXO OXOX", [(4, 100)])]
      [("         ", 0), ("XOXO OXOX", 4)]) "         " 0 = mkRat 51 50 := by decide
  rw [hfr1, hq1, hw1, mkRat_9101] at h1
  have hfr0 : get_q_value
      (update_q_value [("XOXO OXOX", [(4, 100)])] "XOXO OXOX" 4 R "" [])
      "         " 0 = 0 := by
    rw [update_q_value_get_frame _ "XOXO OXOX" 4 R "" [] "         " 0 (by decide)]
    decide
  rw [update_q_value_get_self
      (update_q_value [("XOXO OXOX", [(4, 100)])] "XOXO OXOX" 4 R "" [])
      "         " 0 R "XOXO OXOX" [4], hw0, mkRat_51, hfr0] at h0
  rw [if_neg (by decide)] at h0
  have hlm : listMax ([4].map (fun m => get_q_value
      (update_q_value [("XOXO OXOX", [(4, 100)])] "XOXO OXOX" 4 R "" [])
      "XOXO OXOX" m)) =
      get_q_value (update_q_value [("XOXO OXOX", [(4, 100)])] "XOXO OXOX" 4 R "" [])
        "XOXO OXOX" 4 := rfl
  rw [hlm, hq1] at h0
  rw [alpha_val] at h1 h0
  rw [gamma_val] at h0
  linarith

/-- C3 (amended): train.py propagates termination rewards through the full
history by unchained terminal updates (`next_state = ""`, no legal moves, so
the bootstrapped term is 0 and no later position feeds an earlier one), and
the reward is not a single magnitude on a win: with pairwise-distinct history
entries, entry `j` of an `n`-entry win history becomes
`old + alpha * (10 + (n − j)/10 − old)`, while every entry of a loss (resp.
draw) history becomes `old + alpha * (−10 − old)` (resp.
`old + alpha * (1 − old)`); entries outside the history are untouched.
(gui.py's `end_game` is the variant that chains and rewards only the final
move.) -/
theorem C3_terminal_update_rules :
    (∀ (Q : QTable) (hist : List (String × Nat)), hist.Nodup →
      ∀ (j : Nat) (hj : j < hist.length),
        get_q_value (winBranch Q hist) (hist.get ⟨j, hj⟩).1 (hist.get ⟨j, hj⟩).2 =
          get_q_value Q (hist.get ⟨j, hj⟩).1 (hist.get ⟨j, hj⟩).2 +
            alpha * ((10 + ((hist.length : ℚ) - (j : ℚ)) / 10) -
              get_q_value Q (hist.get ⟨j, hj⟩).1 (hist.get ⟨j, hj⟩).2)) ∧
    (∀ (Q : QTable) (hist : List (String × Nat)) (s : String) (a : Nat),
      (s, a) ∉ hist → get_q_value (winBranch Q hist) s a = get_q_value Q s a) ∧
    (∀ (Q : QTable) (hist : List (String × Nat)), hist.Nodup →
      ∀ (j : Nat) (hj : j < hist.length),
        get_q_value (lossBranch Q hist) (hist.get ⟨j, hj⟩).1 (hist.get ⟨j, hj⟩).2 =
          get_q_value Q (hist.get ⟨j, hj⟩).1 (hist.get ⟨j, hj⟩).2 +
            alpha * ((-10) - get_q_value Q (hist.get ⟨j, hj⟩).1 (hist.get ⟨j, hj⟩).2)) ∧
    (∀ (Q : QTable) (hist : List (String × Nat)), hist.Nodup →
      ∀ (j : Nat) (hj : j < hist.length),
        get_q_value (drawBranch Q hist) (hist.get ⟨j, hj⟩).1 (hist.get ⟨j, hj⟩).2 =
          get_q_value Q (hist.get ⟨j, hj⟩).1 (hist.get ⟨j, hj⟩).2 +
            alpha * (1 - get_q_value Q (hist.get ⟨j, hj⟩).1 (hist.get ⟨j, hj⟩).2)) := by
  refine ⟨?_, ?_, ?_, ?_⟩
  · intro Q hist hnd j hj
    show get_q_value (winBranchGo hist.length 0 Q hist) _ _ = _
    simpa using winGo_get hist.length hist 0 Q hnd j hj
  · intro Q hist s a h
    exact winGo_frame hist.length hist 0 Q s a h
  · intro Q hist hnd j hj
    exact constSweep_get (-10) hist Q hnd j hj
  · intro Q hist hnd j hj
    exact constSweep_get 1 hist Q hnd j hj

/-- C3 witness: the frame clause and the loss-branch formula at concrete
inputs. -/
theorem C3_terminal_update_rules_witness :
    get_q_value (winBranch [] [("A", 0), ("B", 1)]) "C" 2 = get_q_value [] "C" 2 ∧
    get_q_value (lossBranch [] [("A", 0), ("B", 1)])
        (([("A", 0), ("B", 1)] : List (String × Nat)).get ⟨1, by norm_num⟩).1
        (([("A", 0), ("B", 1)] : List (String × Nat)).get ⟨1, by norm_num⟩).2 =
      get_q_value []
          (([("A", 0), ("B", 1)] : List (String × Nat)).get ⟨1, by norm_num⟩).1
          (([("A", 0), ("B", 1)] : List (String × Nat)).get ⟨1, by norm_num⟩).2 +
        alpha * ((-10) - get_q_value []
          (([("A", 0), ("B", 1)] : List (String × Nat)).get ⟨1, by norm_num⟩).1
          (([("A", 0), ("B", 1)] : List (String × Nat)).get ⟨1, by norm_num⟩).2) :=
  ⟨C3_terminal_update_rules.2.1 [] [("A", 0), ("B", 1)] "C" 2 (by decide),
   C3_terminal_update_rules.2.2.1 [] [("A", 0), ("B", 1)] (by decide) 1 (by norm_num)⟩

/- ============== Read-only evaluation vs learning gui (C9) ============== -/

theorem test_game_loop_q (fuel : Nat) : ∀ (Q : QTable) (roleAware smart : Bool)
    (pickA pickO : List Nat → Nat) (b : Board),
    (test_game_loop fuel Q roleAware smart pickA pickO b).2 = Q := by
  induction fuel with
  | zero => intro Q ra sm pA pO b; rfl
  | succ f ih =>
      intro Q ra sm pA pO b
      simp only [test_game_loop]
      split_ifs <;> first | rfl | apply ih

/-- C9 counterexample: the claim says the Evaluator AND the interactive
player never mutate the value table, but gui.py's `end_game` runs `update_q`
over the game memory and changes the table: after a one-move AI-win game from
the empty table the played cell's value is 0.5, not 0, so the table after the
game differs from the table before it. -/
theorem C9_counterexample :
    end_game [] [("         ", 0)] 1 [1, 0, 0, 0, 0, 0, 0, 0, 0] ≠ ([] : QTable) ∧
    get_q_value (end_game [] [("         ", 0)] 1 [1, 0, 0, 0, 0, 0, 0, 0, 0])
        "         " 0 = mkRat 1 2 ∧
    get_q_value ([] : QTable) "         " 0 = 0 := by
  refine ⟨by decide, by decide, by decide⟩

/-- C9 (amended): the Evaluator (test.py) never mutates the table — the
table threaded through any evaluation game comes back unchanged and nothing
is written back — but the interactive player (gui.py) does: `end_game`
applies `update_q` across the game memory at every game end (and then saves
the table), e.g. changing a fresh table's value at the played cell to 0.5. -/
theorem C9_evaluator_readonly :
    (∀ (fuel : Nat) (Q : QTable) (roleAware smart : Bool)
        (pickA pickO : List Nat → Nat) (b : Board),
        (test_game_loop fuel Q roleAware smart pickA pickO b).2 = Q) ∧
    get_q_value (end_game [] [("         ", 4)] 1 [0, 0, 0, 0, 1, 0, 0, 0, 0])
        "         " 4 ≠ get_q_value ([] : QTable) "         " 4 :=
  ⟨fun fuel Q ra sm pA pO b => test_game_loop_q fuel Q ra sm pA pO b, by decide⟩

/-- C9 witness: the read-only clause applied to a concrete game. -/
theorem C9_evaluator_readonly_witness :
    (test_game_loop 9 [("         X", [(0, 1)])] true false (fun l => l.headD 0)
      (fun l => l.headD 0) init_board).2 = [("         X", [(0, 1)])] :=
  C9_evaluator_readonly.1 9 [("         X", [(0, 1)])] true false (fun l => l.headD 0)
    (fun l => l.headD 0) init_board
